import Mathlib

/-!
Shallow embedding of the ip2region xdb Maker (maker/python/xdb/maker.py) and
proofs about its loading, payload, index and header behaviour.  The helper
modules xdb/segment.py, xdb/index.py and xdb/util.py are not part of the
sources; the definitions taken from the spec instead are marked
"Modelled from the spec" in their doc comments.
-/

set_option autoImplicit false

set_option maxRecDepth 1024

namespace IP2Region

def Version_No : Nat := 2

def Header_Info_Length : Nat := 256

def Vector_Index_Rows : Nat := 256

def Vector_Index_Cols : Nat := 256

def Vector_Index_Size : Nat := 8

def Vector_Index_Length : Nat := Vector_Index_Rows * Vector_Index_Cols * Vector_Index_Size

/-- Modelled from the spec: xdb/index.py is not under src/; spec section 3
fixes the segment index block encoding at 14 bytes. -/
def Segment_Index_Block_Size : Nat := 14

/-- Little-endian 2-byte encoding, as Python int.to_bytes(2, "little"). -/
def le16 (n : Nat) : List Nat := [n % 256, n / 256 % 256]

/-- Little-endian 4-byte encoding, as Python int.to_bytes(4, "little"). -/
def le32 (n : Nat) : List Nat :=
  [n % 256, n / 256 % 256, n / 65536 % 256, n / 16777216 % 256]

/-- Split a character list at every occurrence of sep (Python str.split(sep)
for a one-character separator). -/
def splitChar (sep : Char) : List Char → List (List Char)
  | [] => [[]]
  | c :: rest =>
    match splitChar sep rest with
    | [] => [[]]
    | g :: gs => if c = sep then [] :: g :: gs else (c :: g) :: gs

/-- Rejoin groups with sep between them (inverse of splitChar). -/
def joinChar (sep : Char) : List (List Char) → List Char
  | [] => []
  | [g] => g
  | g :: gs => g ++ sep :: joinChar sep gs

/-- Python line.split("|", maxsplit=2) on character lists: at most two splits
from the left, the remainder of the line is kept whole as the third field. -/
def pySplit2 (cs : List Char) : List (List Char) :=
  match splitChar '|' cs with
  | p0 :: p1 :: p2 :: rest => [p0, p1, joinChar '|' (p2 :: rest)]
  | ps => ps

/-- A nonempty all-digit character list read as a decimal number. -/
def parseDecimal (cs : List Char) : Option Nat :=
  if cs ≠ [] ∧ cs.all (fun c => c.isDigit)
  then some (cs.foldl (fun a c => a * 10 + (c.toNat - 48)) 0)
  else none

/-- Modelled from the spec: xdb/util.py is not under src/.  check_ip parses an
IPv4 literal to its numeric value and returns -1 when the literal is
unparsable (spec section 7, InvalidAddressError).  The spec's concrete cases
(section 8) write addresses as plain decimals such as 16777216 which must
parse to themselves, so a plain decimal below 2^32 is accepted alongside a
dotted quad with octets at most 255. -/
def check_ip (cs : List Char) : Int :=
  match splitChar '.' cs with
  | [a, b, c, d] =>
    match parseDecimal a, parseDecimal b, parseDecimal c, parseDecimal d with
    | some x, some y, some z, some w =>
      if x ≤ 255 ∧ y ≤ 255 ∧ z ≤ 255 ∧ w ≤ 255
      then (((((x * 256 + y) * 256 + z) * 256 + w) : Nat) : Int)
      else -1
    | _, _, _, _ => -1
  | [p] =>
    match parseDecimal p with
    | some v => if v < 4294967296 then (v : Int) else -1
    | none => -1
  | _ => -1

/-- An IP segment: [start_ip, end_ip] bound to a region string (the fields of
xdb/segment.py Segment as used by maker.py). -/
structure Segment where
  start_ip : Nat
  end_ip : Nat
  region : String
deriving DecidableEq, Inhabited

/-- The validation error taxonomy of spec section 7 for the loading phase.
RangeOrderError covers both a reversed range and a discontinuity. -/
inductive LoadErr where
  | InputFormatError
  | InvalidAddressError
  | RangeOrderError
  | EmptyRegionError
deriving DecidableEq

deriving instance DecidableEq for Except

/-- One iteration of the Maker.load_segments loop (maker.py lines 127-157):
split the line on at most the first two pipes, check the field count, parse
both IPs, check the range order, the region text, and (after building the
segment) continuity with the previous segment. -/
def parseLine (last : Option Segment) (line : String) : Except LoadErr Segment :=
  let ps := pySplit2 line.data
  if ps.length ≠ 3 then .error .InputFormatError
  else
    let sip := check_ip (ps.getD 0 [])
    if sip = -1 then .error .InvalidAddressError
    else
      let eip := check_ip (ps.getD 1 [])
      if eip = -1 then .error .InvalidAddressError
      else if sip > eip then .error .RangeOrderError
      else if (ps.getD 2 []).length < 1 then .error .EmptyRegionError
      else
        let sgm : Segment := ⟨sip.toNat, eip.toNat, String.mk (ps.getD 2 [])⟩
        match last with
        | some l =>
          if l.end_ip + 1 ≠ sgm.start_ip then .error .RangeOrderError else .ok sgm
        | none => .ok sgm

/-- The Maker.load_segments loop.  `acc` models the mutable self.segments
list, which the Python appends to before the next line's continuity check can
fail; the second component is the error that made the loop return early (the
Python returns the empty list there), if any. -/
def loadLoop : Option Segment → List Segment → List String → List Segment × Option LoadErr
  | _, acc, [] => (acc, none)
  | last, acc, line :: rest =>
    match parseLine last line with
    | .error e => (acc, some e)
    | .ok sg => loadLoop (some sg) (acc ++ [sg]) rest

/-- Maker.load_segments applied to the lines of the source file, from a fresh
last = None and an initially empty segment list. -/
def loadSegments (lines : List String) : List Segment × Option LoadErr :=
  loadLoop none [] lines

/-- The destination file: a byte list plus the write cursor.  Models a Python
file handle opened in "wb" mode. -/
structure WFile where
  data : List Nat
  pos : Nat
deriving DecidableEq

/-- The file contents extended by the zero fill that a write at the cursor
causes when the cursor sits past the end of file. -/
def wpad (f : WFile) : List Nat := f.data ++ List.replicate (f.pos - f.data.length) 0

/-- Write bytes at the cursor: overwrite in place, zero-fill any gap between
the end of file and the cursor, advance the cursor (Python file.write; writing
zero bytes changes nothing). -/
def wwrite (f : WFile) (bs : List Nat) : WFile :=
  if bs = [] then f
  else
    { data := (wpad f).take f.pos ++ bs ++ (wpad f).drop (f.pos + bs.length),
      pos := f.pos + bs.length }

/-- Absolute seek (Python file.seek(p, 0)). -/
def seekTo (f : WFile) (p : Nat) : WFile := { f with pos := p }

/-- The byte at offset i (0 past the end of file). -/
def getByte (f : WFile) (i : Nat) : Nat := f.data.getD i 0

/-- UTF-8 encoding of one character (what Python bytes(s, encoding="utf-8")
produces per character). -/
def charUtf8 (c : Char) : List Nat :=
  let n := c.toNat
  if n < 128 then [n]
  else if n < 2048 then [192 + n / 64, 128 + n % 64]
  else if n < 65536 then [224 + n / 4096, 128 + n / 64 % 64, 128 + n % 64]
  else [240 + n / 262144, 128 + n / 4096 % 64, 128 + n / 64 % 64, 128 + n % 64]

/-- UTF-8 encoding of a string (Python bytes(s, encoding="utf-8")). -/
def utf8Bytes (s : String) : List Nat := (s.data.map charUtf8).flatten

/-- The 256-byte header assembled by Maker.init_db_header (maker.py lines
102-113): version, index policy, timestamp, two zeroed index pointers, zero
padding to 256 bytes. -/
def headerBytes (policy ts : Nat) : List Nat :=
  le16 Version_No ++ le16 policy ++ le32 ts ++ le32 0 ++ le32 0 ++ List.replicate 240 0

/-- The source text file: its lines and a read cursor at line granularity. -/
structure SrcFile where
  lines : List String
  pos : Nat
deriving DecidableEq

/-- A superblock of the vector index (xdb/index.py VectorIndexBlock; fields
from spec section 3). -/
structure VectorIndexBlock where
  first_ptr : Nat
  last_ptr : Nat
deriving DecidableEq, Inhabited

/-- Modelled from the spec: xdb/index.py is not under src/; spec section 6
fixes the superblock encoding at (first_ptr:u32, last_ptr:u32) little-endian. -/
def VectorIndexBlock.encode (b : VectorIndexBlock) : List Nat :=
  le32 b.first_ptr ++ le32 b.last_ptr

/-- A segment index block (xdb/index.py SegmentIndexBlock; fields from spec
section 3). -/
structure SegmentIndexBlock where
  sip : Nat
  eip : Nat
  dl : Nat
  dp : Nat
deriving DecidableEq, Inhabited

/-- Modelled from the spec: xdb/index.py is not under src/; spec section 6
fixes the index block encoding at
(start_ip:u32, end_ip:u32, data_length:u16, data_ptr:u32) little-endian. -/
def SegmentIndexBlock.encode (b : SegmentIndexBlock) : List Nat :=
  le32 b.sip ++ le32 b.eip ++ le16 b.dl ++ le32 b.dp

/-- The 256x256 vector index grid, modelled as a total function from row and
column to the superblock (the Python list of lists is only ever accessed at
row, col < 256). -/
def VectorIndex : Type := Nat → Nat → VectorIndexBlock

/-- The fresh grid new_maker builds: every superblock zeroed. -/
def zeroVI : VectorIndex := fun _ _ => ⟨0, 0⟩

/-- Maker.set_vector_index (maker.py lines 162-171): bucket by the top two
bytes of the IP; record ptr as first_ptr on the bucket's first assignment and
ptr + 14 as last_ptr on every assignment. -/
def set_vector_index (vi : VectorIndex) (ip ptr : Nat) : VectorIndex :=
  let row := ip / 16777216 % 256
  let col := ip / 65536 % 256
  let b0 := vi row col
  let b1 := if b0.first_ptr = 0 then { b0 with first_ptr := ptr } else b0
  let b2 := { b1 with last_ptr := ptr + Segment_Index_Block_Size }
  fun r c => if r = row ∧ c = col then b2 else vi r c

/-- Modelled from the spec: helper for Segment.split.  k counts how many
65536-aligned bucket boundaries remain between s and e; each step cuts off
the part of [s, e] inside s's bucket and continues from the next boundary. -/
def splitRec (reg : String) : Nat → Nat → Nat → List Segment
  | 0, s, e => [⟨s, e, reg⟩]
  | k + 1, s, e =>
    ⟨s, s / 65536 * 65536 + 65535, reg⟩ :: splitRec reg k (s / 65536 * 65536 + 65536) e

/-- Modelled from the spec: xdb/segment.py Segment.split is not under src/.
Spec section 4.2: split a segment into the minimal set of sub-segments such
that none crosses a 65536-address vector-bucket boundary, preserving the
region text on every piece. -/
def Segment.split (sg : Segment) : List Segment :=
  splitRec sg.region (sg.end_ip / 65536 - sg.start_ip / 65536) sg.start_ip sg.end_ip

/-- The mutable state of one Maker instance (the class fields of maker.py). -/
structure MakerState where
  src : SrcFile
  dst : WFile
  index_policy : Nat
  segments : List Segment
  region_pool : List (String × Nat)
  vector_index : VectorIndex

/-- new_maker (maker.py lines 266-291) with the file opening abstracted: a
fresh empty destination file, empty segment list and region pool, and a
zeroed 256x256 vector index. -/
def new_maker_state (policy : Nat) (srcLines : List String) : MakerState :=
  { src := ⟨srcLines, 0⟩
    dst := ⟨[], 0⟩
    index_policy := policy
    segments := []
    region_pool := []
    vector_index := zeroVI }

/-- Maker.init_db_header (maker.py lines 95-115): seek the SOURCE handle to
offset 0, then write the 256-byte header at the destination's current cursor
(the destination handle is never repositioned here). -/
def init_db_header (ts : Nat) (policy : Nat) (src : SrcFile) (dst : WFile) :
    SrcFile × WFile :=
  ({ src with pos := 0 }, wwrite dst (headerBytes policy ts))

/-- Maker.load_segments (maker.py lines 117-160) acting on the maker state:
read the remaining lines from the source cursor and run the loading loop,
appending to self.segments.  The loop's early-return value (the empty list on
error) is discarded by Maker.init exactly as in the Python, so an error
leaves the already-appended prefix in the segment list. -/
def mload (st : MakerState) : MakerState :=
  let toRead := st.src.lines.drop st.src.pos
  let r := loadLoop none st.segments toRead
  { st with segments := r.1, src := { st.src with pos := st.src.lines.length } }

/-- Maker.init (maker.py lines 86-93): header init, then segment loading. -/
def minit (ts : Nat) (st : MakerState) : MakerState :=
  let p := init_db_header ts st.index_policy st.src st.dst
  mload { st with src := p.1, dst := p.2 }

/-- The conditions that make Maker.start return early, plus the range error
struct.pack would raise; spec section 7 names the region size error
RegionTooLargeError. -/
inductive BuildErr where
  | EmptySegmentList
  | RegionTooLargeError
  | MissingPtrCacheError
  | EmptyRegionError
  | StructPackError
deriving DecidableEq

/-- Phase 1 of Maker.start (maker.py lines 184-202): write each distinct
region's UTF-8 bytes once at the cursor, caching its offset in the region
pool; a region encoding beyond 65535 bytes aborts. -/
def writeData : List Segment → List (String × Nat) → WFile →
    Except BuildErr (List (String × Nat) × WFile)
  | [], pool, f => .ok (pool, f)
  | s :: rest, pool, f =>
    match pool.lookup s.region with
    | some _ => writeData rest pool f
    | none =>
      let region := utf8Bytes s.region
      if region.length > 65535 then .error .RegionTooLargeError
      else
        let pos := f.pos
        writeData rest (pool ++ [(s.region, pos)]) (wwrite f region)

/-- The inner loop of phase 2 of Maker.start (maker.py lines 217-234): write
one 14-byte index block per sub-segment, update the vector index, the block
counter and the observed start/end index pointers (-1 means not yet set). -/
def writeBlocks : List Segment → Nat → Nat → VectorIndex → WFile → Int → Int → Nat →
    VectorIndex × WFile × Int × Int × Nat
  | [], _, _, vi, f, sp, ep, cnt => (vi, f, sp, ep, cnt)
  | s :: rest, dl, dp, vi, f, sp, _ep, cnt =>
    let pos := f.pos
    let blk : SegmentIndexBlock := ⟨s.start_ip, s.end_ip, dl, dp⟩
    let f1 := wwrite f blk.encode
    let vi1 := set_vector_index vi s.start_ip pos
    let sp1 : Int := if sp = -1 then (pos : Int) else sp
    writeBlocks rest dl dp vi1 f1 sp1 (pos : Int) (cnt + 1)

/-- Phase 2 of Maker.start (maker.py lines 204-234): per segment, check the
region pool and the data length, split into bucket-aligned sub-segments and
run the inner block-writing loop. -/
def writeIndex : List Segment → List (String × Nat) → VectorIndex → WFile → Int → Int → Nat →
    Except BuildErr (VectorIndex × WFile × Int × Int × Nat)
  | [], _, vi, f, sp, ep, cnt => .ok (vi, f, sp, ep, cnt)
  | sg :: rest, pool, vi, f, sp, ep, cnt =>
    match pool.lookup sg.region with
    | none => .error .MissingPtrCacheError
    | some dp =>
      let dl := (utf8Bytes sg.region).length
      if dl < 1 then .error .EmptyRegionError
      else
        let r := writeBlocks sg.split dl dp vi f sp ep cnt
        writeIndex rest pool r.1 r.2.1 r.2.2.1 r.2.2.2.1 r.2.2.2.2

/-- Phase 3 of Maker.start (maker.py lines 237-242): all 256x256 superblocks
encoded in row-major order. -/
def vectorBytes (vi : VectorIndex) : List Nat :=
  ((List.range 256).map (fun i =>
    ((List.range 256).map (fun j => (vi i j).encode)).flatten)).flatten

/-- Maker.start (maker.py lines 173-252): early return on an empty segment
list, then payload write, index write, vector index flush at offset 256, and
the header pointer patch at offset 8. -/
def start (st : MakerState) : Except BuildErr MakerState :=
  if st.segments.length < 1 then .error .EmptySegmentList
  else
    let f0 := seekTo st.dst (Header_Info_Length + Vector_Index_Length)
    match writeData st.segments st.region_pool f0 with
    | .error e => .error e
    | .ok (pool, f1) =>
      match writeIndex st.segments pool st.vector_index f1 (-1) (-1) 0 with
      | .error e => .error e
      | .ok (vi, f2, sp, ep, _cnt) =>
        let f3 := wwrite (seekTo f2 Header_Info_Length) (vectorBytes vi)
        if 0 ≤ sp ∧ sp < 4294967296 ∧ 0 ≤ ep ∧ ep < 4294967296 then
          let f4 := wwrite (seekTo f3 8) (le32 sp.toNat ++ le32 ep.toNat)
          .ok { st with dst := f4, region_pool := pool, vector_index := vi }
        else .error .StructPackError

/-- One full maker run with a pinned timestamp: new_maker, init, start. -/
def runMaker (policy ts : Nat) (lines : List String) : Except BuildErr MakerState :=
  start (minit ts (new_maker_state policy lines))

/-- The observable outcome of Maker.end (maker.py lines 254-263),
parameterized by whether closing each handle would raise IOError.
src_handle.close() runs first; if it raises, the except block logs the error
and calls sys.exit, so dst_handle.close() is never attempted; the bytes
already written to the destination are never touched. -/
structure EndOutcome where
  srcCloseAttempted : Bool
  dstCloseAttempted : Bool
  dstBytes : List Nat
  errorLogged : Bool
  exited : Bool
deriving DecidableEq

/-- Maker.end as a function of which closes fail and of the destination
bytes already on disk. -/
def makerEnd (srcCloseFails dstCloseFails : Bool) (written : List Nat) : EndOutcome :=
  if srcCloseFails then ⟨true, false, written, true, true⟩
  else if dstCloseFails then ⟨true, true, written, true, true⟩
  else ⟨true, true, written, false, false⟩

/-! ### Denotations of the build phases.

The recursive loops of start are related below to these direct descriptions
of the final region pool, payload bytes, index blocks and vector index. -/

/-- The pool and payload bytes produced by the phase-1 loop: one UTF-8 copy
per region not already cached, offsets advancing with the cursor. -/
def poolBytes : List (String × Nat) → List String → Nat → List (String × Nat) × List Nat
  | p, [], _ => (p, [])
  | p, r :: rs, pos =>
    match p.lookup r with
    | some _ => poolBytes p rs pos
    | none =>
      let bs := utf8Bytes r
      let out := poolBytes (p ++ [(r, pos)]) rs (pos + bs.length)
      (out.1, bs ++ out.2)

/-- The distinct elements of a list in first-use order, those in `seen`
excluded. -/
def firstUseAux (seen : List String) : List String → List String
  | [] => []
  | r :: rs => if r ∈ seen then firstUseAux seen rs else r :: firstUseAux (seen ++ [r]) rs

/-- The distinct elements of a list, in first-use order. -/
def firstUse : List String → List String := firstUseAux []

/-- Each region of the list paired with its write offset, offsets advancing by
the UTF-8 length. -/
def offsetsFrom (pos : Nat) : List String → List (String × Nat)
  | [] => []
  | r :: rs => (r, pos) :: offsetsFrom (pos + (utf8Bytes r).length) rs

/-- The byte length of the payload written before region r (sum of the UTF-8
lengths of the distinct regions preceding r's first occurrence). -/
def offsetIn (us : List String) (r : String) : Nat :=
  (((us.takeWhile (fun t => t != r)).map utf8Bytes).flatten).length

/-- The region pool after a full build of sgs. -/
def poolOf (sgs : List Segment) : List (String × Nat) :=
  (poolBytes [] (sgs.map Segment.region) (Header_Info_Length + Vector_Index_Length)).1

/-- The payload bytes after a full build of sgs. -/
def payloadBytesOf (sgs : List Segment) : List Nat :=
  (poolBytes [] (sgs.map Segment.region) (Header_Info_Length + Vector_Index_Length)).2

/-- The file offset of the first segment index block: end of header, reserved
vector region and payload. -/
def idxBase (sgs : List Segment) : Nat :=
  Header_Info_Length + Vector_Index_Length + (payloadBytesOf sgs).length

/-- The index blocks one segment contributes: one per bucket-aligned
sub-segment, all with the segment's data length and data pointer. -/
def blocksOfSeg (sg : Segment) (dl dp : Nat) : List SegmentIndexBlock :=
  sg.split.map (fun s => ⟨s.start_ip, s.end_ip, dl, dp⟩)

/-- All index blocks written by phase 2, in order. -/
def writtenBlocks (pool : List (String × Nat)) : List Segment → List SegmentIndexBlock
  | [] => []
  | sg :: rest =>
    blocksOfSeg sg (utf8Bytes sg.region).length ((pool.lookup sg.region).getD 0) ++
      writtenBlocks pool rest

/-- Each block's start ip paired with its file offset, offsets advancing by
the 14-byte block size. -/
def blockPairs : List SegmentIndexBlock → Nat → List (Nat × Nat)
  | [], _ => []
  | b :: rest, pos => (b.sip, pos) :: blockPairs rest (pos + 14)

/-- set_vector_index folded over a list of (ip, ptr) assignments. -/
def viFold : VectorIndex → List (Nat × Nat) → VectorIndex
  | vi, [] => vi
  | vi, (ip, ptr) :: rest => viFold (set_vector_index vi ip ptr) rest

/-- One vector-index assignment on a single superblock. -/
def viStep (b : VectorIndexBlock) (ptr : Nat) : VectorIndexBlock :=
  ⟨if b.first_ptr = 0 then ptr else b.first_ptr, ptr + Segment_Index_Block_Size⟩

/-- Row of an IP in the vector grid (high byte). -/
def rowOf (ip : Nat) : Nat := ip / 16777216 % 256

/-- Column of an IP in the vector grid (second byte). -/
def colOf (ip : Nat) : Nat := ip / 65536 % 256

/-- The observed start index pointer after writing `blocks` at `pos` with the
running value sp (-1 when unset). -/
def finalSp (sp : Int) (blocks : List SegmentIndexBlock) (pos : Nat) : Int :=
  if blocks.isEmpty then sp else if sp = -1 then (pos : Int) else sp

/-- The observed end index pointer after writing `blocks` at `pos`. -/
def finalEp (ep : Int) (blocks : List SegmentIndexBlock) (pos : Nat) : Int :=
  if blocks.isEmpty then ep else ((pos + 14 * (blocks.length - 1) : Nat) : Int)

/-- The final vector index of a successful build. -/
def finalVI (sgs : List Segment) : VectorIndex :=
  viFold zeroVI (blockPairs (writtenBlocks (poolOf sgs) sgs) (idxBase sgs))

/-- The bytes of all index blocks of a successful build. -/
def idxBytesOf (sgs : List Segment) : List Nat :=
  ((writtenBlocks (poolOf sgs) sgs).map SegmentIndexBlock.encode).flatten

/-- The start index pointer of a successful build: the offset of the first
index block written. -/
def spOf (sgs : List Segment) : Nat := idxBase sgs

/-- The end index pointer of a successful build: the offset of the first byte
of the last index block written. -/
def epOf (sgs : List Segment) : Nat :=
  idxBase sgs + 14 * ((writtenBlocks (poolOf sgs) sgs).length - 1)

/-- The destination file of a successful build: header, then (seeking past
the reserved vector region) payload and index blocks, then the vector index
flushed at offset 256, then the pointer patch at offset 8. -/
def finalDst (policy ts : Nat) (sgs : List Segment) : WFile :=
  wwrite
    (seekTo
      (wwrite
        (seekTo
          (wwrite
            (wwrite (seekTo ⟨headerBytes policy ts, 256⟩ (Header_Info_Length + Vector_Index_Length))
              (payloadBytesOf sgs))
            (idxBytesOf sgs))
          Header_Info_Length)
        (vectorBytes (finalVI sgs)))
      8)
    (le32 (spOf sgs) ++ le32 (epOf sgs))

/-- Strictly increasing start ips bounded below. -/
def IncrBounded : Nat → List SegmentIndexBlock → Prop
  | _, [] => True
  | lo, b :: rest => lo ≤ b.sip ∧ IncrBounded (b.sip + 1) rest

/-- A nondecreasing list of numbers. -/
def NonDec : List Nat → Prop
  | [] => True
  | [_] => True
  | x :: y :: r => x ≤ y ∧ NonDec (y :: r)

/-- The fields of a line read into a segment, ignoring validity. -/
def segOf (line : String) : Segment :=
  let ps := pySplit2 line.data
  ⟨(check_ip (ps.getD 0 [])).toNat, (check_ip (ps.getD 1 [])).toNat, String.mk (ps.getD 2 [])⟩

/-- The spec's per-line violation list (section 4.1): wrong field count,
unparsable IPv4 literal, reversed range, empty region text, or discontinuity
with the previous segment. -/
def lineViolation (last : Option Segment) (line : String) : Prop :=
  let ps := pySplit2 line.data
  ps.length ≠ 3 ∨
    check_ip (ps.getD 0 []) = -1 ∨
    check_ip (ps.getD 1 []) = -1 ∨
    check_ip (ps.getD 1 []) < check_ip (ps.getD 0 []) ∨
    (ps.getD 2 []).length < 1 ∨
    (∃ l, last = some l ∧ l.end_ip + 1 ≠ (check_ip (ps.getD 0 [])).toNat)

/-- No line of the list violates validation, threading the previous segment
through the continuity checks. -/
def cleanLoad : Option Segment → List String → Prop
  | _, [] => True
  | last, line :: rest => ¬ lineViolation last line ∧ cleanLoad (some (segOf line)) rest

/-- The range and region facts that hold of every segment built by a
successful parse. -/
def validSeg (sg : Segment) : Prop :=
  sg.start_ip ≤ sg.end_ip ∧ sg.end_ip < 4294967296 ∧ 1 ≤ sg.region.length

/-- Continuity with the previous segment, when there is one. -/
def linked : Option Segment → Segment → Prop
  | none, _ => True
  | some l, sg => l.end_ip + 1 = sg.start_ip

/-- Every segment of the list is valid and contiguous with its predecessor. -/
def chainOk : Option Segment → List Segment → Prop
  | _, [] => True
  | last, sg :: rest => linked last sg ∧ validSeg sg ∧ chainOk (some sg) rest

/-- True exactly on a successful result. -/
def exceptOk {e a : Type} : Except e a → Bool
  | .ok _ => true
  | .error _ => false

/-- The state a successful run ends in (the default is returned only on a
failed run; used to name the run's result in concrete witnesses). -/
def runOk (policy ts : Nat) (lines : List String) (dflt : MakerState) : MakerState :=
  match runMaker policy ts lines with
  | .ok st => st
  | .error _ => dflt

/-! ### Lemmas about the write-file model -/

theorem wpad_length (f : WFile) : (wpad f).length = max f.data.length f.pos := by
  simp [wpad]
  omega

theorem getD_wpad (f : WFile) (i : Nat) : (wpad f).getD i 0 = getByte f i := by
  unfold wpad getByte
  rcases Nat.lt_or_ge i f.data.length with h | h
  · rw [List.getD_append _ _ _ _ h]
  · rw [List.getD_append_right _ _ _ _ h]
    rcases Nat.lt_or_ge (i - f.data.length) (f.pos - f.data.length) with h2 | h2
    · rw [List.getD_eq_getElem _ _ (by simpa using h2), List.getElem_replicate,
        List.getD_eq_default _ _ h]
    · rw [List.getD_eq_default, List.getD_eq_default _ _ h]
      simpa using h2

theorem getD_take_lt (l : List Nat) (p i : Nat) (h : i < p) :
    (l.take p).getD i 0 = l.getD i 0 := by
  rcases Nat.lt_or_ge i l.length with h2 | h2
  · rw [List.getD_eq_getElem _ _ (by simp; omega), List.getD_eq_getElem _ _ h2]
    simp [List.getElem_take]
  · rw [List.getD_eq_default _ _ (by simp; omega), List.getD_eq_default _ _ h2]

theorem getD_drop_add (l : List Nat) (n m : Nat) :
    (l.drop n).getD m 0 = l.getD (n + m) 0 := by
  rcases Nat.lt_or_ge (n + m) l.length with h | h
  · rw [List.getD_eq_getElem _ _ (by simp; omega), List.getD_eq_getElem _ _ h]
    simp [List.getElem_drop]
  · rw [List.getD_eq_default _ _ (by simp; omega), List.getD_eq_default _ _ h]

theorem wwrite_nil (f : WFile) : wwrite f [] = f := by
  simp [wwrite]

theorem wwrite_pos (f : WFile) (bs : List Nat) : (wwrite f bs).pos = f.pos + bs.length := by
  rcases eq_or_ne bs [] with h | h <;> simp [wwrite, h]

theorem wwrite_data_of_ne (f : WFile) (bs : List Nat) (h : bs ≠ []) :
    (wwrite f bs).data = (wpad f).take f.pos ++ bs ++ (wpad f).drop (f.pos + bs.length) := by
  simp [wwrite, h]

theorem take_wpad_length (f : WFile) : ((wpad f).take f.pos).length = f.pos := by
  simp [wpad_length]

/-- Pointwise behaviour of a write: the written range holds the new bytes,
everything else reads as before. -/
theorem getByte_wwrite (f : WFile) (bs : List Nat) (i : Nat) :
    getByte (wwrite f bs) i =
      if f.pos ≤ i ∧ i < f.pos + bs.length then bs.getD (i - f.pos) 0 else getByte f i := by
  rcases eq_or_ne bs [] with h | h
  · subst h
    rw [wwrite_nil, if_neg (by simp only [List.length_nil]; omega)]
  have hlenA : ((wpad f).take f.pos).length = f.pos := take_wpad_length f
  have hg : getByte (wwrite f bs) i =
      ((wpad f).take f.pos ++ (bs ++ (wpad f).drop (f.pos + bs.length))).getD i 0 := by
    unfold getByte
    rw [wwrite_data_of_ne f bs h, List.append_assoc]
  rw [hg]
  rcases Nat.lt_or_ge i f.pos with h1 | h1
  · rw [List.getD_append _ _ _ _ (by omega), getD_take_lt _ _ _ h1, getD_wpad]
    rw [if_neg (by omega)]
  · rw [List.getD_append_right _ _ _ _ (by omega), hlenA]
    rcases Nat.lt_or_ge i (f.pos + bs.length) with h2 | h2
    · rw [List.getD_append _ _ _ _ (by omega)]
      rw [if_pos (by omega)]
    · rw [List.getD_append_right _ _ _ _ (by omega), getD_drop_add, getD_wpad]
      have he : f.pos + bs.length + (i - f.pos - bs.length) = i := by omega
      rw [he, if_neg (by omega)]

/-- Two consecutive writes concatenate. -/
theorem wwrite_wwrite (f : WFile) (a b : List Nat) :
    wwrite (wwrite f a) b = wwrite f (a ++ b) := by
  rcases eq_or_ne a [] with ha | ha
  · simp [ha, wwrite_nil]
  rcases eq_or_ne b [] with hb | hb
  · simp [hb, wwrite_nil]
  have hab : a ++ b ≠ [] := by simp [ha]
  have hlenA : ((wpad f).take f.pos).length = f.pos := take_wpad_length f
  have hdata : (wwrite f a).data =
      (wpad f).take f.pos ++ a ++ (wpad f).drop (f.pos + a.length) := wwrite_data_of_ne f a ha
  have hpos : (wwrite f a).pos = f.pos + a.length := wwrite_pos f a
  have hlen : (wwrite f a).pos ≤ (wwrite f a).data.length := by
    rw [hdata, hpos]
    simp [hlenA]
  have hwpad : wpad (wwrite f a) = (wwrite f a).data := by
    unfold wpad
    rw [show (wwrite f a).pos - (wwrite f a).data.length = 0 by omega]
    simp
  have htake : (wwrite f a).data.take (f.pos + a.length) = (wpad f).take f.pos ++ a := by
    rw [hdata, List.take_left' (by simp [hlenA])]
  have hdrop : (wwrite f a).data.drop (f.pos + a.length + b.length) =
      (wpad f).drop (f.pos + a.length + b.length) := by
    rw [hdata]
    have hl : ((wpad f).take f.pos ++ a).length = f.pos + a.length := by simp [hlenA]
    have hsplit : ((wpad f).take f.pos ++ a ++ (wpad f).drop (f.pos + a.length)).drop
        (((wpad f).take f.pos ++ a).length + b.length) =
        ((wpad f).drop (f.pos + a.length)).drop b.length := List.drop_append b.length
    rw [hl] at hsplit
    rw [hsplit, List.drop_drop]
  have h1 : wwrite (wwrite f a) b =
      { data := (wwrite f a).data.take (f.pos + a.length) ++ b ++
          (wwrite f a).data.drop (f.pos + a.length + b.length),
        pos := f.pos + a.length + b.length } := by
    rw [wwrite, if_neg hb, hwpad, hpos]
  have h2 : wwrite f (a ++ b) =
      { data := (wpad f).take f.pos ++ (a ++ b) ++ (wpad f).drop (f.pos + (a.length + b.length)),
        pos := f.pos + (a.length + b.length) } := by
    rw [wwrite, if_neg hab]
    simp
  rw [h1, h2, htake, hdrop]
  have hd : (wpad f).take f.pos ++ a ++ b = (wpad f).take f.pos ++ (a ++ b) := by
    rw [List.append_assoc]
  rw [WFile.mk.injEq]
  constructor
  · rw [← hd, show f.pos + (a.length + b.length) = f.pos + a.length + b.length by omega]
  · omega

/-! ### Lemmas about line splitting -/

theorem splitChar_ne_nil (sep : Char) (cs : List Char) : splitChar sep cs ≠ [] := by
  cases cs with
  | nil => simp [splitChar]
  | cons c rest =>
    simp only [splitChar]
    cases splitChar sep rest with
    | nil => simp
    | cons g gs =>
      rcases eq_or_ne c sep with h | h <;> simp [h]

theorem splitChar_no_sep (sep : Char) (a : List Char) (h : sep ∉ a) :
    splitChar sep a = [a] := by
  induction a with
  | nil => simp [splitChar]
  | cons x a ih =>
    have hx : x ≠ sep := by
      intro he
      exact h (he ▸ List.mem_cons_self x a)
    have ha : sep ∉ a := fun hm => h (List.mem_cons_of_mem x hm)
    simp [splitChar, ih ha, hx]

theorem splitChar_cons_eq (sep c : Char) (rest g : List Char) (gs : List (List Char))
    (hs : splitChar sep rest = g :: gs) :
    splitChar sep (c :: rest) = if c = sep then [] :: g :: gs else (c :: g) :: gs := by
  simp only [splitChar, hs]

theorem splitChar_append_sep (sep : Char) (a t : List Char) (h : sep ∉ a) :
    splitChar sep (a ++ sep :: t) = a :: splitChar sep t := by
  induction a with
  | nil =>
    rcases hs : splitChar sep t with _ | ⟨g, gs⟩
    · exact absurd hs (splitChar_ne_nil sep t)
    · rw [List.nil_append, splitChar_cons_eq sep sep t g gs hs, if_pos rfl]
  | cons x a ih =>
    have hx : x ≠ sep := by
      intro he
      exact h (he ▸ List.mem_cons_self x a)
    have ha : sep ∉ a := fun hm => h (List.mem_cons_of_mem x hm)
    rw [List.cons_append, splitChar_cons_eq sep x _ a (splitChar sep t) (ih ha), if_neg hx]

theorem joinChar_cons_cons (sep : Char) (c : Char) (g : List Char) (gs : List (List Char)) :
    joinChar sep ((c :: g) :: gs) = c :: joinChar sep (g :: gs) := by
  cases gs <;> simp [joinChar]

theorem joinChar_cons_of_ne_nil (sep : Char) (g : List Char) (gs : List (List Char))
    (h : gs ≠ []) : joinChar sep (g :: gs) = g ++ sep :: joinChar sep gs := by
  cases gs with
  | nil => exact absurd rfl h
  | cons g2 gs2 => rfl

theorem joinChar_splitChar (sep : Char) (cs : List Char) :
    joinChar sep (splitChar sep cs) = cs := by
  induction cs with
  | nil => rfl
  | cons c rest ih =>
    rcases hs : splitChar sep rest with _ | ⟨g, gs⟩
    · exact absurd hs (splitChar_ne_nil sep rest)
    · rw [hs] at ih
      rw [splitChar_cons_eq sep c rest g gs hs]
      rcases eq_or_ne c sep with h | h
      · rw [if_pos h, joinChar_cons_of_ne_nil sep [] (g :: gs) (by simp), List.nil_append, ih, h]
      · rw [if_neg h, joinChar_cons_cons, ih]

theorem pySplit2_eq_of_split (cs p0 p1 p2 : List Char) (rest : List (List Char))
    (hs : splitChar '|' cs = p0 :: p1 :: p2 :: rest) :
    pySplit2 cs = [p0, p1, joinChar '|' (p2 :: rest)] := by
  simp only [pySplit2, hs]

theorem pySplit2_three_parts (a b c : List Char) (ha : '|' ∉ a) (hb : '|' ∉ b) :
    pySplit2 (a ++ '|' :: (b ++ '|' :: c)) = [a, b, c] := by
  rcases hs : splitChar '|' c with _ | ⟨g, gs⟩
  · exact absurd hs (splitChar_ne_nil _ c)
  · have hsp : splitChar '|' (a ++ '|' :: (b ++ '|' :: c)) = a :: b :: g :: gs := by
      rw [splitChar_append_sep _ _ _ ha, splitChar_append_sep _ _ _ hb, hs]
    rw [pySplit2_eq_of_split _ a b g gs hsp]
    have hj : joinChar '|' (g :: gs) = c := by
      rw [← hs, joinChar_splitChar]
    rw [hj]

/-! ### Lemmas about loading and validation -/

theorem parseLine_ok_iff (last : Option Segment) (line : String) (sg : Segment) :
    parseLine last line = .ok sg ↔ ¬ lineViolation last line ∧ sg = segOf line := by
  cases last with
  | none =>
    unfold parseLine lineViolation segOf
    simp only [gt_iff_lt]
    split_ifs with h1 h2 h3 h4 h5 <;> simp_all
    exact eq_comm
  | some l =>
    unfold parseLine lineViolation segOf
    simp only [gt_iff_lt]
    split_ifs with h1 h2 h3 h4 h5 h6 <;> simp_all
    exact eq_comm

theorem parseLine_error_of_violation (last : Option Segment) (line : String)
    (hv : lineViolation last line) : ∃ e, parseLine last line = .error e := by
  rcases hp : parseLine last line with e | sg
  · exact ⟨e, rfl⟩
  · exact absurd hv ((parseLine_ok_iff last line sg).mp hp).1

theorem loadLoop_cons (last : Option Segment) (acc : List Segment) (line : String)
    (rest : List String) :
    loadLoop last acc (line :: rest) =
      match parseLine last line with
      | .error e => (acc, some e)
      | .ok sg => loadLoop (some sg) (acc ++ [sg]) rest := rfl

/-- The load succeeds (no early return) exactly when no line violates
validation. -/
theorem loadLoop_none_iff (lines : List String) :
    ∀ last acc, (loadLoop last acc lines).2 = none ↔ cleanLoad last lines := by
  induction lines with
  | nil =>
    intro last acc
    simp [loadLoop, cleanLoad]
  | cons line rest ih =>
    intro last acc
    rcases hp : parseLine last line with e | sg
    · have hv : lineViolation last line := by
        by_contra hnv
        have hok : parseLine last line = .ok (segOf line) :=
          (parseLine_ok_iff _ _ _).mpr ⟨hnv, rfl⟩
        rw [hp] at hok
        exact Except.noConfusion hok
      rw [loadLoop_cons, hp]
      simp [cleanLoad, hv]
    · have hok := (parseLine_ok_iff last line sg).mp hp
      rw [loadLoop_cons, hp]
      show (loadLoop (some sg) (acc ++ [sg]) rest).2 = none ↔ cleanLoad last (line :: rest)
      rw [ih (some sg) (acc ++ [sg])]
      show cleanLoad (some sg) rest ↔ cleanLoad last (line :: rest)
      rw [hok.2]
      simp [cleanLoad, hok.1]

/-- On success every line became a segment. -/
theorem loadLoop_length (lines : List String) :
    ∀ last acc, (loadLoop last acc lines).2 = none →
      (loadLoop last acc lines).1.length = acc.length + lines.length := by
  induction lines with
  | nil =>
    intro last acc _
    simp [loadLoop]
  | cons line rest ih =>
    intro last acc h
    rcases hp : parseLine last line with e | sg
    · rw [loadLoop_cons, hp] at h
      exact absurd h (by simp)
    · rw [loadLoop_cons, hp] at h ⊢
      have := ih (some sg) (acc ++ [sg]) h
      simp only [List.length_append, List.length_cons, List.length_nil] at this ⊢
      omega

theorem check_ip_range (cs : List Char) :
    check_ip cs = -1 ∨ (0 ≤ check_ip cs ∧ check_ip cs < 4294967296) := by
  unfold check_ip
  split
  · split
    · split_ifs with h
      · right
        refine ⟨Int.natCast_nonneg _, ?_⟩
        obtain ⟨hx, hy, hz, hw⟩ := h
        push_cast
        omega
      · exact .inl rfl
    · exact .inl rfl
  · split
    · split_ifs with h
      · right
        exact ⟨Int.natCast_nonneg _, by exact_mod_cast h⟩
      · exact .inl rfl
    · exact .inl rfl
  · exact .inl rfl

theorem parseLine_ok_valid (last : Option Segment) (line : String) (sg : Segment)
    (h : parseLine last line = .ok sg) : linked last sg ∧ validSeg sg := by
  rw [parseLine_ok_iff] at h
  obtain ⟨hnv, hsg⟩ := h
  unfold lineViolation at hnv
  simp only [not_or] at hnv
  obtain ⟨h1, h2, h3, h4, h5, h6⟩ := hnv
  have hr0 := check_ip_range ((pySplit2 line.data).getD 0 [])
  have hr1 := check_ip_range ((pySplit2 line.data).getD 1 [])
  have hs0 : 0 ≤ check_ip ((pySplit2 line.data).getD 0 []) ∧
      check_ip ((pySplit2 line.data).getD 0 []) < 4294967296 := hr0.resolve_left h2
  have hs1 : 0 ≤ check_ip ((pySplit2 line.data).getD 1 []) ∧
      check_ip ((pySplit2 line.data).getD 1 []) < 4294967296 := hr1.resolve_left h3
  constructor
  · cases last with
    | none => exact trivial
    | some l =>
      subst hsg
      show l.end_ip + 1 = (segOf line).start_ip
      by_contra hne
      exact h6 ⟨l, rfl, hne⟩
  · subst hsg
    unfold validSeg segOf
    refine ⟨?_, ?_, ?_⟩
    · simp only
      omega
    · simp only
      omega
    · simp only
      have hlen : (String.mk ((pySplit2 line.data).getD 2 [])).length =
          ((pySplit2 line.data).getD 2 []).length := rfl
      omega

theorem loadLoop_chain (lines : List String) :
    ∀ last acc sgs, loadLoop last acc lines = (sgs, none) →
      ∃ tail, sgs = acc ++ tail ∧ chainOk last tail := by
  induction lines with
  | nil =>
    intro last acc sgs h
    simp only [loadLoop, Prod.mk.injEq] at h
    exact ⟨[], by simp [h.1.symm], trivial⟩
  | cons line rest ih =>
    intro last acc sgs h
    rcases hp : parseLine last line with e | sg
    · rw [loadLoop_cons, hp] at h
      simp at h
    · rw [loadLoop_cons, hp] at h
      obtain ⟨tail, htail, hchain⟩ := ih (some sg) (acc ++ [sg]) sgs h
      obtain ⟨hlink, hvalid⟩ := parseLine_ok_valid last line sg hp
      refine ⟨sg :: tail, ?_, hlink, hvalid, hchain⟩
      rw [htail, List.append_assoc]
      rfl

/-! ### Helpers for Except results and pool lookups -/

theorem lookup_append (p q : List (String × Nat)) (r : String) :
    (p ++ q).lookup r =
      match p.lookup r with
      | some v => some v
      | none => q.lookup r := by
  induction p with
  | nil => simp [List.lookup]
  | cons kv ps ih =>
    obtain ⟨k, v⟩ := kv
    cases hbe : r == k with
    | true => simp [List.lookup, hbe]
    | false => simp [List.lookup, hbe, ih]

theorem lookup_single (k r : String) (v : Nat) :
    List.lookup r [(k, v)] = if r = k then some v else none := by
  by_cases h : r = k
  · rw [if_pos h]
    simp [List.lookup, h]
  · rw [if_neg h]
    have hbe : (r == k) = false := beq_eq_false_iff_ne.mpr h
    simp [List.lookup, hbe]

theorem lookup_append_none (p q : List (String × Nat)) (r : String)
    (h : p.lookup r = none) : (p ++ q).lookup r = q.lookup r := by
  rw [lookup_append, h]

theorem lookup_append_some (p q : List (String × Nat)) (r : String) (v : Nat)
    (h : p.lookup r = some v) : (p ++ q).lookup r = some v := by
  rw [lookup_append, h]

theorem writeData_cons (s : Segment) (rest : List Segment) (pool : List (String × Nat))
    (f : WFile) :
    writeData (s :: rest) pool f =
      match pool.lookup s.region with
      | some _ => writeData rest pool f
      | none =>
        if (utf8Bytes s.region).length > 65535 then .error .RegionTooLargeError
        else writeData rest (pool ++ [(s.region, f.pos)]) (wwrite f (utf8Bytes s.region)) := rfl

/-- Phase 1 succeeds exactly when every region is already cached or short
enough to encode. -/
theorem writeData_isOk_iff (sgs : List Segment) :
    ∀ pool f, exceptOk (writeData sgs pool f) = true ↔
      ∀ s ∈ sgs, (pool.lookup s.region).isSome = true ∨ (utf8Bytes s.region).length ≤ 65535 := by
  induction sgs with
  | nil =>
    intro pool f
    simp [writeData, exceptOk]
  | cons s rest ih =>
    intro pool f
    rw [writeData_cons]
    rcases hl : pool.lookup s.region with _ | v
    · by_cases hlen : (utf8Bytes s.region).length > 65535
      · rw [if_pos hlen]
        constructor
        · intro h
          exact absurd h (by simp [exceptOk])
        · intro h
          rcases h s (List.mem_cons_self s rest) with hs | hs
          · rw [hl] at hs
            simp at hs
          · omega
      · rw [if_neg hlen]
        rw [ih (pool ++ [(s.region, f.pos)]) (wwrite f (utf8Bytes s.region))]
        constructor
        · intro h t ht
          rcases List.mem_cons.mp ht with rfl | ht2
          · right
            omega
          · rcases hlp : pool.lookup t.region with _ | v2
            · rcases h t ht2 with hs | hs
              · rw [lookup_append_none _ _ _ hlp, lookup_single] at hs
                by_cases heq : t.region = s.region
                · right
                  rw [heq]
                  omega
                · rw [if_neg heq] at hs
                  simp at hs
              · right
                exact hs
            · left
              rfl
        · intro h t ht
          rcases h t (List.mem_cons_of_mem s ht) with hs | hs
          · rcases hlp : pool.lookup t.region with _ | v2
            · rw [hlp] at hs
              simp at hs
            · left
              rw [lookup_append_some _ _ _ _ hlp]
              rfl
          · right
            exact hs
    · show exceptOk (writeData rest pool f) = true ↔ _
      rw [ih pool f]
      constructor
      · intro h t ht
        rcases List.mem_cons.mp ht with rfl | ht2
        · left
          rw [hl]
          rfl
        · exact h t ht2
      · intro h t ht
        exact h t (List.mem_cons_of_mem s ht)

theorem utf8Bytes_mk (cs : List Char) : utf8Bytes (String.mk cs) = (cs.map charUtf8).flatten := rfl

theorem utf8Bytes_replicate_a (n : Nat) :
    (utf8Bytes (String.mk (List.replicate n 'a'))).length = n := by
  induction n with
  | zero => rfl
  | succ n ih =>
    rw [utf8Bytes_mk] at ih ⊢
    rw [List.replicate_succ, List.map_cons, List.flatten_cons, List.length_append, ih]
    have h1 : (charUtf8 'a').length = 1 := rfl
    omega

/-! ### Header and vector-index byte lemmas -/

theorem headerBytes_length (policy ts : Nat) : (headerBytes policy ts).length = 256 := by
  unfold headerBytes
  simp only [List.length_append, List.length_replicate, le16, le32, List.length_cons,
    List.length_nil]

theorem headerBytes_split (policy ts : Nat) :
    headerBytes policy ts =
      (le16 Version_No ++ le16 policy ++ le32 ts) ++ List.replicate 248 0 := by
  have h0 : le32 0 ++ (le32 0 ++ List.replicate 240 (0 : Nat)) = List.replicate 248 0 := rfl
  unfold headerBytes
  rw [← h0]
  simp [List.append_assoc]

theorem getD_replicate_zero (n j : Nat) : (List.replicate n (0 : Nat)).getD j 0 = 0 := by
  rcases Nat.lt_or_ge j n with h | h
  · rw [List.getD_eq_getElem _ _ (by simpa using h), List.getElem_replicate]
  · rw [List.getD_eq_default _ _ (by simpa using h)]

theorem headerBytes_zero_tail (policy ts : Nat) (i : Nat) (h8 : 8 ≤ i) :
    (headerBytes policy ts).getD i 0 = 0 := by
  rw [headerBytes_split]
  have hlen : (le16 Version_No ++ le16 policy ++ le32 ts).length = 8 := rfl
  rw [List.getD_append_right _ _ _ _ (by rw [hlen]; omega), getD_replicate_zero]

/-! ### Claim C1 (code bug): a failed load keeps the already-appended prefix -/

/-- C1: the spec says a validation failure leaves the Maker's segment list
empty and produces no file.  On the spec's own gap example the code disagrees:
load_segments appends segment [0,99]->"A" to self.segments before detecting
the gap at 100, returns the empty list, and Maker.init discards that return
value; the prefix stays loaded and a subsequent start() builds a file from it
(the run returns successfully). -/
theorem claim_c1_code_divergence :
    loadSegments ["0|99|A", "101|200|B"] = ([⟨0, 99, "A"⟩], some .RangeOrderError) ∧
    (minit 0 (new_maker_state 1 ["0|99|A", "101|200|B"])).segments = [⟨0, 99, "A"⟩] ∧
    exceptOk (runMaker 1 0 ["0|99|A", "101|200|B"]) = true := by
  refine ⟨by decide, by decide, ?_⟩
  rfl

/-! ### Claim C5: maxsplit-2 line parsing -/

/-- C5: a record line is split on at most the first two pipes, so the region
keeps any further pipes; the concrete line 16777216|16777471|China|Beijing
parses to the segment (16777216, 16777471, "China|Beijing"). -/
theorem claim_c5 (a b c : List Char) (ha : '|' ∉ a) (hb : '|' ∉ b) :
    pySplit2 (a ++ '|' :: (b ++ '|' :: c)) = [a, b, c] ∧
    parseLine none "16777216|16777471|China|Beijing" =
      .ok ⟨16777216, 16777471, "China|Beijing"⟩ :=
  ⟨pySplit2_three_parts a b c ha hb, by decide⟩

theorem claim_c5_witness :
    pySplit2 ("16777216".data ++ '|' :: ("16777471".data ++ '|' :: "China|Beijing".data)) =
      ["16777216".data, "16777471".data, "China|Beijing".data] :=
  (claim_c5 "16777216".data "16777471".data "China|Beijing".data
    (by decide) (by decide)).1

/-! ### Claim C6: load failure is exactly a per-line violation -/

/-- C6: loading fails exactly when some line has a wrong field count, an
unparsable IP literal, a reversed range, an empty region, or is discontinuous
with the previous segment; otherwise every line is loaded.  The concrete line
16777471|16777216|X fails with the range-order error. -/
theorem claim_c6 :
    (∀ lines : List String,
      ((loadSegments lines).2 = none ↔ cleanLoad none lines) ∧
      ((loadSegments lines).2 = none → (loadSegments lines).1.length = lines.length)) ∧
    loadSegments ["16777471|16777216|X"] = ([], some .RangeOrderError) := by
  refine ⟨fun lines => ⟨loadLoop_none_iff lines none [], fun h => ?_⟩, by decide⟩
  simpa using loadLoop_length lines none [] h

theorem claim_c6_witness :
    (loadSegments ["0|99|A", "100|200|B"]).2 = none ∧
    (loadSegments ["0|99|A", "100|200|B"]).1.length = 2 :=
  ⟨by decide, (claim_c6.1 ["0|99|A", "100|200|B"]).2 (by decide)⟩

/-! ### Claim C8 (corrected): handle release in Maker.end -/

/-- C8 counterexample: the claim says a failure while closing one handle does
not prevent the other handle from being released.  In Maker.end a failing
src_handle.close() jumps to the except block, which logs and exits, so
dst_handle.close() is never attempted. -/
theorem claim_c8_counterexample :
    (makerEnd true false [7]).dstCloseAttempted = false ∧
    (makerEnd true false [7]).errorLogged = true := by decide

/-- C8 amended: Maker.end always attempts to close the source handle and
closes the destination handle exactly when the source close did not fail; a
close failure is logged and terminates via sys.exit; in every case the bytes
already written to the destination are left untouched. -/
theorem claim_c8_amended (srcFails dstFails : Bool) (written : List Nat) :
    (makerEnd srcFails dstFails written).dstBytes = written ∧
    (makerEnd srcFails dstFails written).srcCloseAttempted = true ∧
    (makerEnd srcFails dstFails written).dstCloseAttempted = !srcFails ∧
    (makerEnd srcFails dstFails written).errorLogged = (srcFails || dstFails) ∧
    (makerEnd srcFails dstFails written).exited = (srcFails || dstFails) := by
  cases srcFails <;> cases dstFails <;> simp [makerEnd]

/-! ### Claim C9: the build is deterministic -/

/-- C9: two full maker runs (init then start) from identical source lines,
the same index policy, and a pinned timestamp produce identical results, in
particular byte-identical destination files. -/
theorem claim_c9 (policy ts : Nat) (lines : List String) (st1 st2 : MakerState)
    (h1 : st1 = new_maker_state policy lines) (h2 : st2 = new_maker_state policy lines) :
    start (minit ts st1) = start (minit ts st2) ∧
    (∀ st1a st2a, start (minit ts st1) = .ok st1a → start (minit ts st2) = .ok st2a →
      st1a.dst = st2a.dst) := by
  subst h1
  subst h2
  refine ⟨rfl, fun st1a st2a ha hb => ?_⟩
  rw [ha] at hb
  exact congrArg MakerState.dst (Except.ok.inj hb)

theorem claim_c9_witness :
    start (minit 7 (new_maker_state 1 ["0|255|ZZ"])) =
      start (minit 7 (new_maker_state 1 ["0|255|ZZ"])) :=
  (claim_c9 1 7 ["0|255|ZZ"] _ _ rfl rfl).1

/-! ### Claim C10: init_db_header frame conditions -/

/-- C10: init_db_header seeks only the source handle (to 0, contents
untouched); the 256-byte header (version 2, policy, timestamp, pointer fields
zero) is written at the destination's current cursor p, bytes outside
[p, p+256) are unchanged, the cursor advances to p+256; the header lands at
offset 0 only because new_maker opens a fresh destination with cursor 0. -/
theorem claim_c10 (ts policy : Nat) (src : SrcFile) (dst : WFile) :
    (init_db_header ts policy src dst).1.lines = src.lines ∧
    (init_db_header ts policy src dst).1.pos = 0 ∧
    (init_db_header ts policy src dst).2.pos = dst.pos + 256 ∧
    (∀ i, i < dst.pos ∨ dst.pos + 256 ≤ i →
      getByte (init_db_header ts policy src dst).2 i = getByte dst i) ∧
    (∀ i, i < 256 →
      getByte (init_db_header ts policy src dst).2 (dst.pos + i) =
        (headerBytes policy ts).getD i 0) ∧
    (headerBytes policy ts).getD 0 0 = 2 ∧
    (headerBytes policy ts).getD 1 0 = 0 ∧
    (headerBytes policy ts).getD 2 0 = policy % 256 ∧
    (headerBytes policy ts).getD 3 0 = policy / 256 % 256 ∧
    (headerBytes policy ts).getD 4 0 = ts % 256 ∧
    (headerBytes policy ts).getD 5 0 = ts / 256 % 256 ∧
    (headerBytes policy ts).getD 6 0 = ts / 65536 % 256 ∧
    (headerBytes policy ts).getD 7 0 = ts / 16777216 % 256 ∧
    (∀ i, 8 ≤ i → (headerBytes policy ts).getD i 0 = 0) ∧
    (new_maker_state policy src.lines).dst.pos = 0 := by
  have hpos : (init_db_header ts policy src dst).2.pos = dst.pos + 256 := by
    show (wwrite dst (headerBytes policy ts)).pos = dst.pos + 256
    rw [wwrite_pos, headerBytes_length]
  refine ⟨rfl, rfl, hpos, ?_, ?_, rfl, rfl, rfl, rfl, rfl, rfl, rfl, rfl,
    fun i h8 => headerBytes_zero_tail policy ts i h8, rfl⟩
  · intro i hi
    show getByte (wwrite dst (headerBytes policy ts)) i = getByte dst i
    rw [getByte_wwrite, if_neg (by rw [headerBytes_length]; omega)]
  · intro i hi
    show getByte (wwrite dst (headerBytes policy ts)) (dst.pos + i) =
      (headerBytes policy ts).getD i 0
    rw [getByte_wwrite, if_pos (by rw [headerBytes_length]; omega)]
    congr 1
    omega

theorem claim_c10_witness :
    getByte (init_db_header 99 1 ⟨["x"], 1⟩ ⟨[5, 6], 2⟩).2 0 = 5 ∧
    getByte (init_db_header 99 1 ⟨["x"], 1⟩ ⟨[5, 6], 2⟩).2 (2 + 0) = 2 ∧
    (headerBytes 1 99).getD 8 0 = 0 := by
  obtain ⟨-, -, -, hframe, hcontent, -, -, -, -, -, -, -, -, hzero, -⟩ :=
    claim_c10 99 1 ⟨["x"], 1⟩ ⟨[5, 6], 2⟩
  refine ⟨hframe 0 (Or.inl (by decide)), ?_, hzero 8 (by decide)⟩
  rw [hcontent 0 (by decide)]
  rfl

/-! ### Claim C7: region size limit in the payload phase -/

/-- C7: starting from the fresh (empty) region pool, the payload phase
succeeds exactly when every segment's region encodes to at most 65535 UTF-8
bytes; a region of 65536 repeated one-byte characters fails with the
region-too-large error. -/
theorem claim_c7 :
    (∀ sgs f, exceptOk (writeData sgs [] f) = true ↔
        ∀ s ∈ sgs, (utf8Bytes s.region).length ≤ 65535) ∧
    writeData [⟨0, 0, String.mk (List.replicate 65536 'a')⟩] [] ⟨[], 524544⟩ =
      .error .RegionTooLargeError := by
  constructor
  · intro sgs f
    rw [writeData_isOk_iff sgs [] f]
    constructor
    · intro h s hs
      rcases h s hs with h1 | h1
      · simp [List.lookup] at h1
      · exact h1
    · intro h s hs
      exact .inr (h s hs)
  · rw [writeData_cons]
    simp only [List.lookup]
    rw [if_pos (by rw [utf8Bytes_replicate_a]; omega)]

theorem claim_c7_witness :
    exceptOk (writeData [⟨0, 0, "cn"⟩] [] ⟨[], 524544⟩) = true :=
  (claim_c7.1 [⟨0, 0, "cn"⟩] ⟨[], 524544⟩).mpr (by decide)

/-! ### Denotation of the payload phase -/

theorem lookup_eq_none_iff (p : List (String × Nat)) (r : String) :
    p.lookup r = none ↔ r ∉ p.map Prod.fst := by
  induction p with
  | nil => simp [List.lookup]
  | cons kv ps ih =>
    obtain ⟨k, v⟩ := kv
    by_cases h : r = k
    · subst h
      simp [List.lookup]
    · have hbe : (r == k) = false := beq_eq_false_iff_ne.mpr h
      simp [List.lookup, hbe, ih, h]

theorem firstUseAux_cons_mem (seen : List String) (r : String) (rs : List String)
    (h : r ∈ seen) : firstUseAux seen (r :: rs) = firstUseAux seen rs := by
  simp [firstUseAux, h]

theorem firstUseAux_cons_not_mem (seen : List String) (r : String) (rs : List String)
    (h : r ∉ seen) : firstUseAux seen (r :: rs) = r :: firstUseAux (seen ++ [r]) rs := by
  simp [firstUseAux, h]

theorem poolBytes_denote (rs : List String) :
    ∀ p pos,
      (poolBytes p rs pos).1 = p ++ offsetsFrom pos (firstUseAux (p.map Prod.fst) rs) ∧
      (poolBytes p rs pos).2 = ((firstUseAux (p.map Prod.fst) rs).map utf8Bytes).flatten := by
  induction rs with
  | nil =>
    intro p pos
    simp [poolBytes, firstUseAux, offsetsFrom]
  | cons r rs ih =>
    intro p pos
    rcases hl : p.lookup r with _ | v
    · have hmem : r ∉ p.map Prod.fst := (lookup_eq_none_iff p r).mp hl
      have heq : poolBytes p (r :: rs) pos =
          ((poolBytes (p ++ [(r, pos)]) rs (pos + (utf8Bytes r).length)).1,
           utf8Bytes r ++ (poolBytes (p ++ [(r, pos)]) rs (pos + (utf8Bytes r).length)).2) := by
        simp only [poolBytes, hl]
      obtain ⟨ih1, ih2⟩ := ih (p ++ [(r, pos)]) (pos + (utf8Bytes r).length)
      have hkeys : (p ++ [(r, pos)]).map Prod.fst = p.map Prod.fst ++ [r] := by simp
      rw [heq, firstUseAux_cons_not_mem _ _ _ hmem]
      constructor
      · show (poolBytes (p ++ [(r, pos)]) rs (pos + (utf8Bytes r).length)).1 = _
        rw [ih1, hkeys]
        rw [show offsetsFrom pos (r :: firstUseAux (p.map Prod.fst ++ [r]) rs) =
          (r, pos) :: offsetsFrom (pos + (utf8Bytes r).length)
            (firstUseAux (p.map Prod.fst ++ [r]) rs) from rfl]
        simp [List.append_assoc]
      · show utf8Bytes r ++ _ = _
        rw [ih2, hkeys]
        simp
    · have hmem : r ∈ p.map Prod.fst := by
        by_contra hc
        rw [← lookup_eq_none_iff] at hc
        rw [hl] at hc
        exact Option.noConfusion hc
      have heq : poolBytes p (r :: rs) pos = poolBytes p rs pos := by
        simp only [poolBytes, hl]
      rw [heq, firstUseAux_cons_mem _ _ _ hmem]
      exact ih p pos

theorem offsetIn_cons_self (r : String) (us : List String) : offsetIn (r :: us) r = 0 := by
  unfold offsetIn
  rw [List.takeWhile_cons_of_neg (by simp)]
  rfl

theorem offsetIn_cons_ne (u r : String) (us : List String) (h : u ≠ r) :
    offsetIn (u :: us) r = (utf8Bytes u).length + offsetIn us r := by
  unfold offsetIn
  rw [List.takeWhile_cons_of_pos (by simp [bne_iff_ne, h])]
  simp

theorem offsetsFrom_lookup (us : List String) :
    ∀ pos r, r ∈ us → (offsetsFrom pos us).lookup r = some (pos + offsetIn us r) := by
  induction us with
  | nil =>
    intro pos r h
    exact absurd h (List.not_mem_nil r)
  | cons u us ih =>
    intro pos r hr
    by_cases h : r = u
    · subst h
      show List.lookup r ((r, pos) :: offsetsFrom (pos + (utf8Bytes r).length) us) = _
      have hbe : (r == r) = true := by simp
      simp only [List.lookup, hbe]
      rw [offsetIn_cons_self]
      rfl
    · have hbe : (r == u) = false := beq_eq_false_iff_ne.mpr h
      show List.lookup r ((u, pos) :: offsetsFrom (pos + (utf8Bytes u).length) us) = _
      simp only [List.lookup, hbe]
      have hrus : r ∈ us := by
        rcases List.mem_cons.mp hr with h1 | h1
        · exact absurd h1 h
        · exact h1
      rw [ih _ r hrus, offsetIn_cons_ne u r us (fun he => h he.symm)]
      congr 1
      omega

theorem mem_firstUseAux (rs : List String) :
    ∀ seen r, r ∈ firstUseAux seen rs ↔ r ∈ rs ∧ r ∉ seen := by
  induction rs with
  | nil => simp [firstUseAux]
  | cons u us ih =>
    intro seen r
    by_cases hu : u ∈ seen
    · rw [firstUseAux_cons_mem _ _ _ hu, ih seen r]
      constructor
      · intro h
        exact ⟨List.mem_cons_of_mem u h.1, h.2⟩
      · intro h
        rcases List.mem_cons.mp h.1 with rfl | hr
        · exact absurd hu h.2
        · exact ⟨hr, h.2⟩
    · rw [firstUseAux_cons_not_mem _ _ _ hu]
      by_cases hru : r = u
      · subst hru
        simp [hu]
      · constructor
        · intro h
          rcases List.mem_cons.mp h with h1 | h1
          · exact absurd h1 hru
          · have := (ih (seen ++ [u]) r).mp h1
            refine ⟨List.mem_cons_of_mem u this.1, fun hc => this.2 (by simp [hc])⟩
        · intro h
          rcases List.mem_cons.mp h.1 with rfl | hr
          · exact absurd rfl hru
          · refine List.mem_cons_of_mem u ((ih (seen ++ [u]) r).mpr ⟨hr, ?_⟩)
            simp [h.2, hru]

theorem nodup_firstUseAux (rs : List String) :
    ∀ seen, (firstUseAux seen rs).Nodup := by
  induction rs with
  | nil =>
    intro seen
    simp [firstUseAux]
  | cons u us ih =>
    intro seen
    by_cases hu : u ∈ seen
    · rw [firstUseAux_cons_mem _ _ _ hu]
      exact ih seen
    · rw [firstUseAux_cons_not_mem _ _ _ hu, List.nodup_cons]
      refine ⟨?_, ih (seen ++ [u])⟩
      rw [mem_firstUseAux]
      simp

theorem writeData_denote (sgs : List Segment) :
    ∀ pool f,
      (∀ s ∈ sgs, (pool.lookup s.region).isSome = true ∨ (utf8Bytes s.region).length ≤ 65535) →
      writeData sgs pool f =
        .ok ((poolBytes pool (sgs.map Segment.region) f.pos).1,
          wwrite f (poolBytes pool (sgs.map Segment.region) f.pos).2) := by
  induction sgs with
  | nil =>
    intro pool f _
    simp [writeData, poolBytes, wwrite_nil]
  | cons s rest ih =>
    intro pool f hok
    rw [writeData_cons]
    rcases hl : pool.lookup s.region with _ | v
    · have hlen : (utf8Bytes s.region).length ≤ 65535 := by
        rcases hok s (List.mem_cons_self s rest) with h | h
        · rw [hl] at h
          simp at h
        · exact h
      rw [if_neg (by omega)]
      have hok2 : ∀ t ∈ rest, ((pool ++ [(s.region, f.pos)]).lookup t.region).isSome = true ∨
          (utf8Bytes t.region).length ≤ 65535 := by
        intro t ht
        rcases hok t (List.mem_cons_of_mem s ht) with h | h
        · rcases hlp : pool.lookup t.region with _ | v2
          · rw [hlp] at h
            simp at h
          · left
            rw [lookup_append_some _ _ _ _ hlp]
            rfl
        · right
          exact h
      rw [ih (pool ++ [(s.region, f.pos)]) (wwrite f (utf8Bytes s.region)) hok2]
      have hpb : poolBytes pool ((s :: rest).map Segment.region) f.pos =
          ((poolBytes (pool ++ [(s.region, f.pos)]) (rest.map Segment.region)
              (f.pos + (utf8Bytes s.region).length)).1,
           utf8Bytes s.region ++ (poolBytes (pool ++ [(s.region, f.pos)])
              (rest.map Segment.region) (f.pos + (utf8Bytes s.region).length)).2) := by
        simp only [List.map_cons, poolBytes, hl]
      rw [hpb, wwrite_pos, wwrite_wwrite]
    · have hpb : poolBytes pool ((s :: rest).map Segment.region) f.pos =
          poolBytes pool (rest.map Segment.region) f.pos := by
        simp only [List.map_cons, poolBytes, hl]
      rw [hpb]
      exact ih pool f (fun t ht => hok t (List.mem_cons_of_mem s ht))

/-! ### Denotation of the index phase -/

theorem encode_length (b : SegmentIndexBlock) : b.encode.length = 14 := rfl

theorem vencode_length (b : VectorIndexBlock) : b.encode.length = 8 := rfl

theorem flatten_map_const_length {α : Type} (f : α → List Nat) (k : Nat) (l : List α)
    (h : ∀ x ∈ l, (f x).length = k) : ((l.map f).flatten).length = k * l.length := by
  induction l with
  | nil => simp
  | cons x xs ih =>
    simp only [List.map_cons, List.flatten_cons, List.length_append, List.length_cons]
    rw [h x (List.mem_cons_self x xs), ih (fun y hy => h y (List.mem_cons_of_mem x hy))]
    ring

theorem flatten_map_encode_length (xs : List SegmentIndexBlock) :
    ((xs.map SegmentIndexBlock.encode).flatten).length = 14 * xs.length :=
  flatten_map_const_length _ 14 xs (fun x _ => encode_length x)

theorem vectorBytes_length (vi : VectorIndex) : (vectorBytes vi).length = 524288 := by
  unfold vectorBytes
  rw [flatten_map_const_length _ 2048]
  · simp
  · intro x _
    rw [flatten_map_const_length _ 8]
    · simp
    · intro y _
      exact vencode_length _

theorem blockPairs_append (xs ys : List SegmentIndexBlock) :
    ∀ pos, blockPairs (xs ++ ys) pos = blockPairs xs pos ++ blockPairs ys (pos + 14 * xs.length) := by
  induction xs with
  | nil =>
    intro pos
    simp [blockPairs]
  | cons b bs ih =>
    intro pos
    show (b.sip, pos) :: blockPairs (bs ++ ys) (pos + 14) = _
    rw [ih (pos + 14)]
    rw [show pos + 14 + 14 * bs.length = pos + 14 * (bs.length + 1) by ring]
    rfl

theorem viFold_append (q1 q2 : List (Nat × Nat)) :
    ∀ vi, viFold vi (q1 ++ q2) = viFold (viFold vi q1) q2 := by
  induction q1 with
  | nil =>
    intro vi
    rfl
  | cons p q ih =>
    intro vi
    obtain ⟨ip, ptr⟩ := p
    simp only [List.cons_append, viFold]
    exact ih _

theorem finalSp_ne (sp : Int) (xs : List SegmentIndexBlock) (pos : Nat) (hx : xs ≠ []) :
    finalSp sp xs pos = if sp = -1 then (pos : Int) else sp := by
  unfold finalSp
  rw [if_neg (by simpa using hx)]

theorem finalEp_ne (ep : Int) (xs : List SegmentIndexBlock) (pos : Nat) (hx : xs ≠ []) :
    finalEp ep xs pos = ((pos + 14 * (xs.length - 1) : Nat) : Int) := by
  unfold finalEp
  rw [if_neg (by simpa using hx)]

theorem finalSp_cons (sp : Int) (b : SegmentIndexBlock) (bs : List SegmentIndexBlock) (pos : Nat) :
    finalSp (if sp = -1 then (pos : Int) else sp) bs (pos + 14) = finalSp sp (b :: bs) pos := by
  rcases eq_or_ne bs [] with hbs | hbs
  · subst hbs
    unfold finalSp
    simp
  · rw [finalSp_ne _ bs (pos + 14) hbs, finalSp_ne sp (b :: bs) pos (by simp)]
    split_ifs <;> simp_all

theorem finalEp_cons (ep : Int) (b : SegmentIndexBlock) (bs : List SegmentIndexBlock) (pos : Nat) :
    finalEp ((pos : Nat) : Int) bs (pos + 14) = finalEp ep (b :: bs) pos := by
  rcases eq_or_ne bs [] with hbs | hbs
  · subst hbs
    unfold finalEp
    simp
  · rw [finalEp_ne _ bs _ hbs, finalEp_ne ep (b :: bs) pos (by simp)]
    have h1 : bs.length ≠ 0 := fun hc => hbs (List.length_eq_zero.mp hc)
    congr 1
    simp only [List.length_cons]
    omega

theorem finalSp_append (sp : Int) (xs ys : List SegmentIndexBlock) (pos : Nat) :
    finalSp (finalSp sp xs pos) ys (pos + 14 * xs.length) = finalSp sp (xs ++ ys) pos := by
  rcases eq_or_ne xs [] with hx | hx
  · subst hx
    unfold finalSp
    simp
  · rcases eq_or_ne ys [] with hy | hy
    · subst hy
      rw [List.append_nil]
      rw [finalSp_ne sp xs pos hx]
      unfold finalSp
      simp
    · rw [finalSp_ne sp xs pos hx, finalSp_ne _ ys _ hy,
        finalSp_ne sp (xs ++ ys) pos (by simp [hx])]
      split_ifs <;> simp_all

theorem finalEp_append (ep : Int) (xs ys : List SegmentIndexBlock) (pos : Nat) :
    finalEp (finalEp ep xs pos) ys (pos + 14 * xs.length) = finalEp ep (xs ++ ys) pos := by
  rcases eq_or_ne ys [] with hy | hy
  · subst hy
    rw [List.append_nil]
    unfold finalEp
    simp
  · rcases eq_or_ne xs [] with hx | hx
    · subst hx
      unfold finalEp
      simp
    · rw [finalEp_ne _ ys _ hy, finalEp_ne ep (xs ++ ys) pos (by simp [hx])]
      congr 1
      have h1 : xs.length ≠ 0 := fun hc => hx (List.length_eq_zero.mp hc)
      have h2 : ys.length ≠ 0 := fun hc => hy (List.length_eq_zero.mp hc)
      simp only [List.length_append]
      omega

theorem writeBlocks_denote (subs : List Segment) :
    ∀ (dl dp : Nat) (vi : VectorIndex) (f : WFile) (sp ep : Int) (cnt : Nat),
      writeBlocks subs dl dp vi f sp ep cnt =
        (viFold vi (blockPairs (subs.map (fun s =>
            (⟨s.start_ip, s.end_ip, dl, dp⟩ : SegmentIndexBlock))) f.pos),
         wwrite f (((subs.map (fun s =>
            (⟨s.start_ip, s.end_ip, dl, dp⟩ : SegmentIndexBlock))).map
              SegmentIndexBlock.encode).flatten),
         finalSp sp (subs.map (fun s => ⟨s.start_ip, s.end_ip, dl, dp⟩)) f.pos,
         finalEp ep (subs.map (fun s => ⟨s.start_ip, s.end_ip, dl, dp⟩)) f.pos,
         cnt + subs.length) := by
  induction subs with
  | nil =>
    intro dl dp vi f sp ep cnt
    simp [writeBlocks, viFold, blockPairs, finalSp, finalEp, wwrite_nil]
  | cons s rest ih =>
    intro dl dp vi f sp ep cnt
    show writeBlocks rest dl dp (set_vector_index vi s.start_ip f.pos)
        (wwrite f (SegmentIndexBlock.encode ⟨s.start_ip, s.end_ip, dl, dp⟩))
        (if sp = -1 then (f.pos : Int) else sp) ((f.pos : Nat) : Int) (cnt + 1) = _
    rw [ih]
    have hpos : (wwrite f (SegmentIndexBlock.encode ⟨s.start_ip, s.end_ip, dl, dp⟩)).pos =
        f.pos + 14 := by
      rw [wwrite_pos, encode_length]
    rw [hpos]
    simp only [List.map_cons, blockPairs, viFold, List.flatten_cons]
    rw [wwrite_wwrite, finalSp_cons sp ⟨s.start_ip, s.end_ip, dl, dp⟩, finalEp_cons ep ⟨s.start_ip, s.end_ip, dl, dp⟩]
    rw [show cnt + 1 + rest.length = cnt + (rest.length + 1) by ring]
    rfl

theorem writeIndex_cons (sg : Segment) (rest : List Segment) (pool : List (String × Nat))
    (vi : VectorIndex) (f : WFile) (sp ep : Int) (cnt : Nat) :
    writeIndex (sg :: rest) pool vi f sp ep cnt =
      match pool.lookup sg.region with
      | none => .error .MissingPtrCacheError
      | some dp =>
        if (utf8Bytes sg.region).length < 1 then .error .EmptyRegionError
        else
          writeIndex rest pool
            (writeBlocks sg.split (utf8Bytes sg.region).length dp vi f sp ep cnt).1
            (writeBlocks sg.split (utf8Bytes sg.region).length dp vi f sp ep cnt).2.1
            (writeBlocks sg.split (utf8Bytes sg.region).length dp vi f sp ep cnt).2.2.1
            (writeBlocks sg.split (utf8Bytes sg.region).length dp vi f sp ep cnt).2.2.2.1
            (writeBlocks sg.split (utf8Bytes sg.region).length dp vi f sp ep cnt).2.2.2.2 := rfl

theorem writtenBlocks_cons (pool : List (String × Nat)) (sg : Segment) (rest : List Segment) :
    writtenBlocks pool (sg :: rest) =
      blocksOfSeg sg (utf8Bytes sg.region).length ((pool.lookup sg.region).getD 0) ++
        writtenBlocks pool rest := rfl

theorem writeIndex_denote (sgs : List Segment) :
    ∀ (pool : List (String × Nat)) (vi : VectorIndex) (f : WFile) (sp ep : Int) (cnt : Nat),
      (∀ sg ∈ sgs, (pool.lookup sg.region).isSome = true ∧ 1 ≤ (utf8Bytes sg.region).length) →
      writeIndex sgs pool vi f sp ep cnt =
        .ok (viFold vi (blockPairs (writtenBlocks pool sgs) f.pos),
          wwrite f (((writtenBlocks pool sgs).map SegmentIndexBlock.encode).flatten),
          finalSp sp (writtenBlocks pool sgs) f.pos,
          finalEp ep (writtenBlocks pool sgs) f.pos,
          cnt + (writtenBlocks pool sgs).length) := by
  induction sgs with
  | nil =>
    intro pool vi f sp ep cnt _
    simp [writeIndex, writtenBlocks, viFold, blockPairs, finalSp, finalEp, wwrite_nil]
  | cons sg rest ih =>
    intro pool vi f sp ep cnt hok
    obtain ⟨hsome, hlen⟩ := hok sg (List.mem_cons_self sg rest)
    obtain ⟨dp, hdp⟩ := Option.isSome_iff_exists.mp hsome
    rw [writeIndex_cons, hdp]
    show (if (utf8Bytes sg.region).length < 1 then Except.error BuildErr.EmptyRegionError
      else writeIndex rest pool
        (writeBlocks sg.split (utf8Bytes sg.region).length dp vi f sp ep cnt).1
        (writeBlocks sg.split (utf8Bytes sg.region).length dp vi f sp ep cnt).2.1
        (writeBlocks sg.split (utf8Bytes sg.region).length dp vi f sp ep cnt).2.2.1
        (writeBlocks sg.split (utf8Bytes sg.region).length dp vi f sp ep cnt).2.2.2.1
        (writeBlocks sg.split (utf8Bytes sg.region).length dp vi f sp ep cnt).2.2.2.2) = _
    rw [if_neg (by omega), writeBlocks_denote]
    dsimp only
    rw [ih pool _ _ _ _ _ (fun t ht => hok t (List.mem_cons_of_mem sg ht))]
    have hb1len : ((((sg.split.map (fun s =>
        (⟨s.start_ip, s.end_ip, (utf8Bytes sg.region).length, dp⟩ : SegmentIndexBlock)))).map
          SegmentIndexBlock.encode).flatten).length = 14 * sg.split.length := by
      rw [flatten_map_encode_length, List.length_map]
    have hpos : (wwrite f (((sg.split.map (fun s =>
        (⟨s.start_ip, s.end_ip, (utf8Bytes sg.region).length, dp⟩ : SegmentIndexBlock))).map
          SegmentIndexBlock.encode).flatten)).pos = f.pos + 14 * sg.split.length := by
      rw [wwrite_pos, hb1len]
    rw [hpos]
    rw [writtenBlocks_cons, hdp]
    show _ = Except.ok (viFold vi (blockPairs (blocksOfSeg sg (utf8Bytes sg.region).length dp ++
        writtenBlocks pool rest) f.pos), _, _, _, _)
    rw [blockPairs_append, viFold_append]
    unfold blocksOfSeg
    rw [List.map_append, List.flatten_append, wwrite_wwrite]
    rw [List.length_map, ← finalSp_append sp _ _ f.pos, ← finalEp_append ep _ _ f.pos]
    rw [List.length_map]
    rw [List.length_append, List.length_map]
    rw [show cnt + (sg.split.length + (writtenBlocks pool rest).length) =
      cnt + sg.split.length + (writtenBlocks pool rest).length by ring]
    simp only [Option.getD_some]

/-! ### The full pipeline -/

theorem splitRec_ne (reg : String) (k s e : Nat) : splitRec reg k s e ≠ [] := by
  cases k <;> simp [splitRec]

theorem split_ne (sg : Segment) : sg.split ≠ [] := splitRec_ne _ _ _ _

theorem writtenBlocks_ne (pool : List (String × Nat)) (sgs : List Segment) (h : sgs ≠ []) :
    writtenBlocks pool sgs ≠ [] := by
  cases sgs with
  | nil => exact absurd rfl h
  | cons sg rest =>
    rw [writtenBlocks_cons]
    intro hc
    rcases List.append_eq_nil.mp hc with ⟨h1, _⟩
    exact split_ne sg (List.map_eq_nil_iff.mp h1)

theorem chainOk_valid (sgs : List Segment) :
    ∀ last, chainOk last sgs → ∀ sg ∈ sgs, validSeg sg := by
  induction sgs with
  | nil =>
    intro last _ sg hsg
    exact absurd hsg (List.not_mem_nil sg)
  | cons s rest ih =>
    intro last h sg hsg
    obtain ⟨_, hvalid, hchain⟩ := h
    rcases List.mem_cons.mp hsg with rfl | hm
    · exact hvalid
    · exact ih (some s) hchain sg hm

theorem utf8Bytes_pos (s : String) (h : 1 ≤ s.length) : 1 ≤ (utf8Bytes s).length := by
  rcases s with ⟨cs⟩
  cases cs with
  | nil => simp [String.length] at h
  | cons c cs =>
    show 1 ≤ ((List.map charUtf8 (c :: cs)).flatten).length
    rw [List.map_cons, List.flatten_cons, List.length_append]
    have h1 : 1 ≤ (charUtf8 c).length := by
      simp only [charUtf8]
      split_ifs <;> simp
    omega

theorem poolOf_lookup (sgs : List Segment) (sg : Segment) (h : sg ∈ sgs) :
    (poolOf sgs).lookup sg.region =
      some ((Header_Info_Length + Vector_Index_Length) +
        offsetIn (firstUse (sgs.map Segment.region)) sg.region) := by
  unfold poolOf
  obtain ⟨h1, -⟩ :=
    poolBytes_denote (sgs.map Segment.region) [] (Header_Info_Length + Vector_Index_Length)
  rw [h1, List.nil_append]
  show (offsetsFrom _ (firstUseAux [] (sgs.map Segment.region))).lookup sg.region = _
  rw [offsetsFrom_lookup]
  · rfl
  · rw [mem_firstUseAux]
    exact ⟨List.mem_map_of_mem Segment.region h, List.not_mem_nil _⟩

theorem minit_new_maker (policy ts : Nat) (lines : List String) :
    minit ts (new_maker_state policy lines) =
      { src := ⟨lines, lines.length⟩, dst := ⟨headerBytes policy ts, 256⟩,
        index_policy := policy, segments := (loadSegments lines).1,
        region_pool := [], vector_index := zeroVI } := by
  have hne : headerBytes policy ts ≠ [] := by
    intro hc
    have hl := headerBytes_length policy ts
    rw [hc] at hl
    simp at hl
  have hw : wwrite ⟨[], 0⟩ (headerBytes policy ts) = ⟨headerBytes policy ts, 256⟩ := by
    rw [wwrite, if_neg hne, WFile.mk.injEq]
    constructor
    · show (wpad ⟨[], 0⟩).take 0 ++ _ ++ (wpad ⟨[], 0⟩).drop _ = _
      simp [wpad]
    · simp [headerBytes_length]
  show mload { new_maker_state policy lines with
      src := ⟨lines, 0⟩, dst := wwrite ⟨[], 0⟩ (headerBytes policy ts) } = _
  rw [hw]
  unfold mload new_maker_state loadSegments
  dsimp only
  rw [List.drop_zero]

theorem start_eq (st : MakerState) :
    start st =
      if st.segments.length < 1 then .error .EmptySegmentList
      else
        match writeData st.segments st.region_pool
            (seekTo st.dst (Header_Info_Length + Vector_Index_Length)) with
        | .error e => .error e
        | .ok (pool, f1) =>
          match writeIndex st.segments pool st.vector_index f1 (-1) (-1) 0 with
          | .error e => .error e
          | .ok (vi, f2, sp, ep, _cnt) =>
            if 0 ≤ sp ∧ sp < 4294967296 ∧ 0 ≤ ep ∧ ep < 4294967296 then
              .ok { st with
                dst := wwrite (seekTo (wwrite (seekTo f2 Header_Info_Length)
                  (vectorBytes vi)) 8) (le32 sp.toNat ++ le32 ep.toNat),
                region_pool := pool, vector_index := vi }
            else .error .StructPackError := rfl

/-- What one successful full run says about the final state: the claims about
the vector index, the destination bytes and the region pool read off the
denotations, and the loaded segments satisfy the chain invariants. -/
theorem runMaker_denote (policy ts : Nat) (lines : List String) (sgs : List Segment)
    (st' : MakerState)
    (hload : loadSegments lines = (sgs, none))
    (hrun : runMaker policy ts lines = .ok st') :
    st'.vector_index = finalVI sgs ∧
    st'.dst = finalDst policy ts sgs ∧
    st'.region_pool = poolOf sgs ∧
    st'.segments = sgs ∧
    sgs ≠ [] ∧ chainOk none sgs ∧
    (∀ s ∈ sgs, (utf8Bytes s.region).length ≤ 65535) := by
  obtain ⟨tail, htail, hchain⟩ := loadLoop_chain lines none [] sgs hload
  rw [List.nil_append] at htail
  subst htail
  have hchain2 : chainOk none sgs := hchain
  have hvalid := chainOk_valid sgs none hchain2
  unfold runMaker at hrun
  rw [minit_new_maker, hload] at hrun
  dsimp only at hrun
  rcases eq_or_ne sgs [] with hsg | hne
  · rw [start_eq] at hrun
    subst hsg
    simp at hrun
  rw [start_eq] at hrun
  dsimp only at hrun
  rw [if_neg (by
    simp only [not_lt]
    exact Nat.one_le_iff_ne_zero.mpr (fun hc => hne (List.length_eq_zero.mp hc)))] at hrun
  set f0 : WFile := seekTo ⟨headerBytes policy ts, 256⟩ (Header_Info_Length + Vector_Index_Length)
    with hf0
  have hlen65535 : ∀ s ∈ sgs, (utf8Bytes s.region).length ≤ 65535 := by
    rcases hwd : writeData sgs [] f0 with e | pr
    · rw [hwd] at hrun
      exact absurd hrun (by simp)
    · have hok : exceptOk (writeData sgs [] f0) = true := by
        rw [hwd]
        rfl
      intro s hs
      rcases (writeData_isOk_iff sgs [] f0).mp hok s hs with h1 | h1
      · simp [List.lookup] at h1
      · exact h1
  have hwd := writeData_denote sgs [] f0 (fun s hs => Or.inr (hlen65535 s hs))
  rw [hwd] at hrun
  have hf0pos : f0.pos = Header_Info_Length + Vector_Index_Length := rfl
  have hpool : (poolBytes [] (sgs.map Segment.region) f0.pos).1 = poolOf sgs := by
    rw [hf0pos]
    rfl
  have hpay : (poolBytes [] (sgs.map Segment.region) f0.pos).2 = payloadBytesOf sgs := by
    rw [hf0pos]
    rfl
  rw [hpool, hpay] at hrun
  dsimp only at hrun
  have hreg : ∀ sg ∈ sgs, ((poolOf sgs).lookup sg.region).isSome = true ∧
      1 ≤ (utf8Bytes sg.region).length := by
    intro sg hsg
    constructor
    · rw [poolOf_lookup sgs sg hsg]
      rfl
    · exact utf8Bytes_pos _ (hvalid sg hsg).2.2
  have hwi := writeIndex_denote sgs (poolOf sgs) zeroVI (wwrite f0 (payloadBytesOf sgs))
    (-1) (-1) 0 hreg
  rw [hwi] at hrun
  dsimp only at hrun
  have hf1pos : (wwrite f0 (payloadBytesOf sgs)).pos = idxBase sgs := by
    rw [wwrite_pos, hf0pos]
    rfl
  rw [hf1pos] at hrun
  have hbne : writtenBlocks (poolOf sgs) sgs ≠ [] := writtenBlocks_ne _ _ hne
  have hsp : finalSp (-1) (writtenBlocks (poolOf sgs) sgs) (idxBase sgs) = ((idxBase sgs : Nat) : Int) := by
    rw [finalSp_ne _ _ _ hbne, if_pos rfl]
  have hep : finalEp (-1) (writtenBlocks (poolOf sgs) sgs) (idxBase sgs) =
      ((epOf sgs : Nat) : Int) := by
    rw [finalEp_ne _ _ _ hbne]
    rfl
  rw [hsp, hep] at hrun
  by_cases hg : 0 ≤ ((idxBase sgs : Nat) : Int) ∧ ((idxBase sgs : Nat) : Int) < 4294967296 ∧
      0 ≤ ((epOf sgs : Nat) : Int) ∧ ((epOf sgs : Nat) : Int) < 4294967296
  · rw [if_pos hg] at hrun
    have hst := Except.ok.inj hrun
    rw [← hst]
    dsimp only
    refine ⟨rfl, ?_, rfl, rfl, hne, hchain2, hlen65535⟩
    unfold finalDst finalVI idxBytesOf spOf
    rw [Int.toNat_natCast, Int.toNat_natCast]
  · rw [if_neg hg] at hrun
    exact absurd hrun (by simp)

/-! ### Reading bytes of the finished file -/

theorem getByte_seekTo (f : WFile) (p i : Nat) : getByte (seekTo f p) i = getByte f i := rfl

theorem seekTo_pos (f : WFile) (p : Nat) : (seekTo f p).pos = p := rfl

theorem le32_length (n : Nat) : (le32 n).length = 4 := rfl

theorem le16_length (n : Nat) : (le16 n).length = 2 := rfl

theorem HV_eq : Header_Info_Length + Vector_Index_Length = 524544 := rfl

theorem H_eq : Header_Info_Length = 256 := rfl

theorem idxBase_eq (sgs : List Segment) :
    idxBase sgs = 524544 + (payloadBytesOf sgs).length := by
  unfold idxBase
  rw [HV_eq]

theorem payload_pos_eq (policy ts : Nat) (sgs : List Segment) :
    (wwrite (seekTo (⟨headerBytes policy ts, 256⟩ : WFile) 524544) (payloadBytesOf sgs)).pos =
      idxBase sgs := by
  rw [wwrite_pos, seekTo_pos, idxBase_eq]

theorem getByte_finalDst_ptr (policy ts : Nat) (sgs : List Segment) (k : Nat) (hk : k < 8) :
    getByte (finalDst policy ts sgs) (8 + k) =
      (le32 (spOf sgs) ++ le32 (epOf sgs)).getD k 0 := by
  unfold finalDst
  rw [getByte_wwrite, if_pos (by
    simp only [seekTo_pos, List.length_append, le32_length]
    omega)]
  rw [seekTo_pos]
  rw [show 8 + k - 8 = k by omega]

theorem getByte_finalDst_payload (policy ts : Nat) (sgs : List Segment) (i : Nat)
    (hi : i < (payloadBytesOf sgs).length) :
    getByte (finalDst policy ts sgs) (Header_Info_Length + Vector_Index_Length + i) =
      (payloadBytesOf sgs).getD i 0 := by
  have hbase := idxBase_eq sgs
  unfold finalDst
  rw [HV_eq, H_eq]
  rw [getByte_wwrite, if_neg (by
    simp only [seekTo_pos, List.length_append, le32_length]
    omega)]
  rw [getByte_seekTo]
  rw [getByte_wwrite, if_neg (by
    simp only [seekTo_pos, vectorBytes_length]
    omega)]
  rw [getByte_seekTo]
  rw [getByte_wwrite, if_neg (by
    rw [payload_pos_eq policy ts sgs]
    omega)]
  rw [getByte_wwrite, if_pos (by
    simp only [seekTo_pos]
    omega)]
  rw [seekTo_pos]
  rw [show 524544 + i - 524544 = i by omega]

theorem getByte_finalDst_index (policy ts : Nat) (sgs : List Segment) (j : Nat)
    (hj : j < (idxBytesOf sgs).length) :
    getByte (finalDst policy ts sgs) (idxBase sgs + j) = (idxBytesOf sgs).getD j 0 := by
  have hbase := idxBase_eq sgs
  unfold finalDst
  rw [getByte_wwrite, if_neg (by
    simp only [seekTo_pos, List.length_append, le32_length]
    omega)]
  rw [getByte_seekTo]
  rw [getByte_wwrite, if_neg (by
    simp only [seekTo_pos, vectorBytes_length]
    have hH := H_eq
    omega)]
  rw [getByte_seekTo]
  rw [getByte_wwrite, if_pos (by
    rw [wwrite_pos, seekTo_pos]
    have hV : Vector_Index_Length = 524288 := rfl
    have hH := H_eq
    omega)]
  rw [wwrite_pos, seekTo_pos]
  rw [show idxBase sgs + j - (Header_Info_Length + Vector_Index_Length +
      (payloadBytesOf sgs).length) = j by
    have hHV := HV_eq
    omega]

theorem flatten_map_encode_getD (blocks : List SegmentIndexBlock) :
    ∀ j k, j < blocks.length → k < 14 →
      ((blocks.map SegmentIndexBlock.encode).flatten).getD (14 * j + k) 0 =
        ((blocks.getD j default).encode).getD k 0 := by
  induction blocks with
  | nil =>
    intro j k hj _
    simp at hj
  | cons b bs ih =>
    intro j k hj hk
    cases j with
    | zero =>
      show ((b.encode ++ (bs.map SegmentIndexBlock.encode).flatten)).getD (14 * 0 + k) 0 = _
      rw [show 14 * 0 + k = k by omega]
      rw [List.getD_append _ _ _ _ (by rw [encode_length]; omega)]
      rfl
    | succ j =>
      show ((b.encode ++ (bs.map SegmentIndexBlock.encode).flatten)).getD (14 * (j + 1) + k) 0 = _
      rw [List.getD_append_right _ _ _ _ (by rw [encode_length]; omega)]
      rw [encode_length]
      rw [show 14 * (j + 1) + k - 14 = 14 * j + k by omega]
      exact ih j k (by simpa using hj) hk

theorem payloadBytesOf_eq (sgs : List Segment) :
    payloadBytesOf sgs = ((firstUse (sgs.map Segment.region)).map utf8Bytes).flatten := by
  unfold payloadBytesOf
  obtain ⟨-, h2⟩ :=
    poolBytes_denote (sgs.map Segment.region) [] (Header_Info_Length + Vector_Index_Length)
  rw [h2]
  rfl

theorem flatten_utf8_getD (us : List String) :
    ∀ r, r ∈ us → ∀ k, k < (utf8Bytes r).length →
      ((us.map utf8Bytes).flatten).getD (offsetIn us r + k) 0 = (utf8Bytes r).getD k 0 := by
  induction us with
  | nil =>
    intro r h
    exact absurd h (List.not_mem_nil r)
  | cons u us ih =>
    intro r hr k hk
    by_cases h : u = r
    · subst h
      rw [offsetIn_cons_self]
      show ((utf8Bytes u ++ (us.map utf8Bytes).flatten)).getD (0 + k) 0 = _
      rw [show 0 + k = k by omega]
      rw [List.getD_append _ _ _ _ hk]
    · rw [offsetIn_cons_ne u r us h]
      show ((utf8Bytes u ++ (us.map utf8Bytes).flatten)).getD _ 0 = _
      rw [List.getD_append_right _ _ _ _ (by omega)]
      rw [show (utf8Bytes u).length + offsetIn us r + k - (utf8Bytes u).length =
        offsetIn us r + k by omega]
      refine ih r ?_ k hk
      rcases List.mem_cons.mp hr with h1 | h1
      · exact absurd h1.symm h
      · exact h1

theorem offsetIn_lt (us : List String) :
    ∀ r, r ∈ us →
      offsetIn us r + (utf8Bytes r).length ≤ ((us.map utf8Bytes).flatten).length := by
  induction us with
  | nil =>
    intro r h
    exact absurd h (List.not_mem_nil r)
  | cons u us ih =>
    intro r hr
    show _ ≤ ((utf8Bytes u ++ (us.map utf8Bytes).flatten)).length
    rw [List.length_append]
    by_cases h : u = r
    · subst h
      rw [offsetIn_cons_self]
      omega
    · rw [offsetIn_cons_ne u r us h]
      have hm : r ∈ us := by
        rcases List.mem_cons.mp hr with h1 | h1
        · exact absurd h1.symm h
        · exact h1
      have := ih r hm
      omega

theorem writtenBlocks_mem (sgs : List Segment) :
    ∀ pool b, b ∈ writtenBlocks pool sgs →
      ∃ sg ∈ sgs, b.dp = (pool.lookup sg.region).getD 0 ∧
        b.dl = (utf8Bytes sg.region).length := by
  induction sgs with
  | nil =>
    intro pool b hb
    exact absurd hb (List.not_mem_nil b)
  | cons sg rest ih =>
    intro pool b hb
    rw [writtenBlocks_cons] at hb
    rcases List.mem_append.mp hb with h1 | h1
    · unfold blocksOfSeg at h1
      obtain ⟨s, -, hs2⟩ := List.mem_map.mp h1
      exact ⟨sg, List.mem_cons_self sg rest, by rw [← hs2], by rw [← hs2]⟩
    · obtain ⟨t, ht1, ht2⟩ := ih pool b h1
      exact ⟨t, List.mem_cons_of_mem sg ht1, ht2⟩

/-! ### Claim C3: payload position, deduplication, data pointers -/

/-- C3: after a successful build the payload starts at offset
256 + 512*1024 = 524544 and is exactly one UTF-8 copy of each distinct region
in first-use order; every segment's pooled data pointer is the offset at
which its region was written on first occurrence (so segments with equal
regions share one data_ptr), the region bytes sit at that offset in the
file, and every written index block carries such a pointer. -/
theorem claim_c3 (policy ts : Nat) (lines : List String) (sgs : List Segment)
    (st' : MakerState)
    (hload : loadSegments lines = (sgs, none))
    (hrun : runMaker policy ts lines = .ok st') :
    payloadBytesOf sgs = ((firstUse (sgs.map Segment.region)).map utf8Bytes).flatten ∧
    (firstUse (sgs.map Segment.region)).Nodup ∧
    (∀ r, r ∈ firstUse (sgs.map Segment.region) ↔ r ∈ sgs.map Segment.region) ∧
    (∀ i, i < (payloadBytesOf sgs).length →
      getByte st'.dst (Header_Info_Length + Vector_Index_Length + i) =
        (payloadBytesOf sgs).getD i 0) ∧
    (∀ sg ∈ sgs, st'.region_pool.lookup sg.region =
      some (Header_Info_Length + Vector_Index_Length +
        offsetIn (firstUse (sgs.map Segment.region)) sg.region)) ∧
    (∀ sg1 ∈ sgs, ∀ sg2 ∈ sgs, sg1.region = sg2.region →
      st'.region_pool.lookup sg1.region = st'.region_pool.lookup sg2.region) ∧
    (∀ sg ∈ sgs, ∀ k, k < (utf8Bytes sg.region).length →
      getByte st'.dst (Header_Info_Length + Vector_Index_Length +
        offsetIn (firstUse (sgs.map Segment.region)) sg.region + k) =
        (utf8Bytes sg.region).getD k 0) ∧
    (∀ b ∈ writtenBlocks (poolOf sgs) sgs, ∃ sg ∈ sgs,
      b.dp = Header_Info_Length + Vector_Index_Length +
        offsetIn (firstUse (sgs.map Segment.region)) sg.region) := by
  obtain ⟨hvi, hdst, hpool, hseg, hne, hchain, hlen⟩ :=
    runMaker_denote policy ts lines sgs st' hload hrun
  have hmemfu : ∀ sg ∈ sgs, sg.region ∈ firstUse (sgs.map Segment.region) := by
    intro sg hsg
    show sg.region ∈ firstUseAux [] (sgs.map Segment.region)
    rw [mem_firstUseAux]
    exact ⟨List.mem_map_of_mem Segment.region hsg, List.not_mem_nil _⟩
  refine ⟨payloadBytesOf_eq sgs, nodup_firstUseAux _ [], ?_, ?_, ?_, ?_, ?_, ?_⟩
  · intro r
    show r ∈ firstUseAux [] (sgs.map Segment.region) ↔ _
    rw [mem_firstUseAux]
    simp
  · intro i hi
    rw [hdst]
    exact getByte_finalDst_payload policy ts sgs i hi
  · intro sg hsg
    rw [hpool]
    exact poolOf_lookup sgs sg hsg
  · intro sg1 _ sg2 _ h
    rw [h]
  · intro sg hsg k hk
    have hlt : offsetIn (firstUse (sgs.map Segment.region)) sg.region + k <
        (payloadBytesOf sgs).length := by
      have h1 := offsetIn_lt (firstUse (sgs.map Segment.region)) sg.region (hmemfu sg hsg)
      rw [payloadBytesOf_eq sgs]
      omega
    rw [hdst]
    rw [show Header_Info_Length + Vector_Index_Length +
        offsetIn (firstUse (sgs.map Segment.region)) sg.region + k =
      Header_Info_Length + Vector_Index_Length +
        (offsetIn (firstUse (sgs.map Segment.region)) sg.region + k) by omega]
    rw [getByte_finalDst_payload policy ts sgs _ hlt]
    rw [payloadBytesOf_eq sgs]
    exact flatten_utf8_getD (firstUse (sgs.map Segment.region)) sg.region
      (hmemfu sg hsg) k hk
  · intro b hb
    obtain ⟨sg, hsg, hdp, -⟩ := writtenBlocks_mem sgs (poolOf sgs) b hb
    refine ⟨sg, hsg, ?_⟩
    rw [hdp, poolOf_lookup sgs sg hsg]
    rfl

theorem claim_c3_witness :
    payloadBytesOf [⟨0, 255, "AA"⟩] =
      ((firstUse ([⟨0, 255, "AA"⟩].map Segment.region)).map utf8Bytes).flatten :=
  (claim_c3 1 0 ["0|255|AA"] [⟨0, 255, "AA"⟩]
    (runOk 1 0 ["0|255|AA"] (new_maker_state 1 []))
    (by decide) rfl).1

/-! ### Claim C4: the patched header pointers -/

/-- C4: after a successful build, header bytes 8..16 hold, as two
little-endian u32 values, the observed start and end index pointers: the
file offset of the first index block written and the offset of the first
byte of the last index block written; the blocks really sit at those
offsets. -/
theorem claim_c4 (policy ts : Nat) (lines : List String) (sgs : List Segment)
    (st' : MakerState)
    (hload : loadSegments lines = (sgs, none))
    (hrun : runMaker policy ts lines = .ok st') :
    0 < (writtenBlocks (poolOf sgs) sgs).length ∧
    spOf sgs = idxBase sgs ∧
    epOf sgs = idxBase sgs + 14 * ((writtenBlocks (poolOf sgs) sgs).length - 1) ∧
    (∀ k, k < 4 → getByte st'.dst (8 + k) = (le32 (spOf sgs)).getD k 0) ∧
    (∀ k, k < 4 → getByte st'.dst (12 + k) = (le32 (epOf sgs)).getD k 0) ∧
    (∀ k, k < 14 → getByte st'.dst (spOf sgs + k) =
      (((writtenBlocks (poolOf sgs) sgs).getD 0 default).encode).getD k 0) ∧
    (∀ k, k < 14 → getByte st'.dst (epOf sgs + k) =
      (((writtenBlocks (poolOf sgs) sgs).getD
        ((writtenBlocks (poolOf sgs) sgs).length - 1) default).encode).getD k 0) := by
  obtain ⟨hvi, hdst, hpool, hseg, hne, hchain, hlen⟩ :=
    runMaker_denote policy ts lines sgs st' hload hrun
  have hbne := writtenBlocks_ne (poolOf sgs) sgs hne
  have hn : 0 < (writtenBlocks (poolOf sgs) sgs).length := List.length_pos.mpr hbne
  have hIlen : (idxBytesOf sgs).length = 14 * (writtenBlocks (poolOf sgs) sgs).length := by
    unfold idxBytesOf
    exact flatten_map_encode_length _
  refine ⟨hn, rfl, rfl, ?_, ?_, ?_, ?_⟩
  · intro k hk
    rw [hdst, getByte_finalDst_ptr policy ts sgs k (by omega)]
    rw [List.getD_append _ _ _ _ (by rw [le32_length]; omega)]
  · intro k hk
    rw [hdst]
    rw [show 12 + k = 8 + (4 + k) by omega]
    rw [getByte_finalDst_ptr policy ts sgs (4 + k) (by omega)]
    rw [List.getD_append_right _ _ _ _ (by rw [le32_length]; omega)]
    rw [le32_length]
    rw [show 4 + k - 4 = k by omega]
  · intro k hk
    rw [hdst]
    show getByte (finalDst policy ts sgs) (idxBase sgs + k) = _
    rw [getByte_finalDst_index policy ts sgs k (by omega)]
    unfold idxBytesOf
    have h := flatten_map_encode_getD (writtenBlocks (poolOf sgs) sgs) 0 k hn hk
    rw [show 14 * 0 + k = k by omega] at h
    exact h
  · intro k hk
    rw [hdst]
    show getByte (finalDst policy ts sgs)
      (idxBase sgs + 14 * ((writtenBlocks (poolOf sgs) sgs).length - 1) + k) = _
    rw [show idxBase sgs + 14 * ((writtenBlocks (poolOf sgs) sgs).length - 1) + k =
      idxBase sgs + (14 * ((writtenBlocks (poolOf sgs) sgs).length - 1) + k) by omega]
    rw [getByte_finalDst_index policy ts sgs _ (by omega)]
    unfold idxBytesOf
    exact flatten_map_encode_getD _ ((writtenBlocks (poolOf sgs) sgs).length - 1) k
      (by omega) hk

theorem claim_c4_witness :
    0 < (writtenBlocks (poolOf [⟨0, 255, "BB"⟩]) [⟨0, 255, "BB"⟩]).length :=
  (claim_c4 1 0 ["0|255|BB"] [⟨0, 255, "BB"⟩]
    (runOk 1 0 ["0|255|BB"] (new_maker_state 1 []))
    (by decide) rfl).1

/-! ### Pointwise analysis of the vector index -/

theorem set_vector_index_apply (vi : VectorIndex) (ip ptr r c : Nat) :
    set_vector_index vi ip ptr r c =
      if r = rowOf ip ∧ c = colOf ip then viStep (vi (rowOf ip) (colOf ip)) ptr
      else vi r c := by
  show (if r = ip / 16777216 % 256 ∧ c = ip / 65536 % 256 then _ else vi r c) = _
  unfold rowOf colOf viStep
  by_cases h : r = ip / 16777216 % 256 ∧ c = ip / 65536 % 256
  · rw [if_pos h, if_pos h]
    by_cases h0 : (vi (ip / 16777216 % 256) (ip / 65536 % 256)).first_ptr = 0
    · rw [if_pos h0, if_pos h0]
    · rw [if_neg h0, if_neg h0]
  · rw [if_neg h, if_neg h]

theorem viFold_apply (pairs : List (Nat × Nat)) :
    ∀ (vi : VectorIndex) (r c : Nat),
      viFold vi pairs r c =
        (pairs.filter (fun q => rowOf q.1 == r && colOf q.1 == c)).foldl
          (fun b q => viStep b q.2) (vi r c) := by
  induction pairs with
  | nil =>
    intro vi r c
    rfl
  | cons p rest ih =>
    intro vi r c
    obtain ⟨ip, ptr⟩ := p
    show viFold (set_vector_index vi ip ptr) rest r c = _
    rw [ih (set_vector_index vi ip ptr) r c]
    by_cases h : rowOf ip = r ∧ colOf ip = c
    · rw [List.filter_cons_of_pos (by simp [h.1, h.2])]
      rw [set_vector_index_apply, if_pos ⟨h.1.symm, h.2.symm⟩, h.1, h.2]
      rfl
    · rw [List.filter_cons_of_neg (by
        simp only [Bool.and_eq_true, beq_iff_eq]
        exact fun hc => h hc)]
      rw [set_vector_index_apply, if_neg (fun hc => h ⟨hc.1.symm, hc.2.symm⟩)]

theorem getLastD_irrel {α : Type} (l : List α) (h : l ≠ []) (a b : α) :
    l.getLastD a = l.getLastD b := by
  cases l with
  | nil => exact absurd rfl h
  | cons x t => rfl

theorem viStep_first_of_ne (b : VectorIndexBlock) (ptr : Nat) (h : b.first_ptr ≠ 0) :
    (viStep b ptr).first_ptr = b.first_ptr := by
  simp [viStep, h]

theorem foldl_viStep_of_ne (q : List (Nat × Nat)) :
    ∀ b : VectorIndexBlock, b.first_ptr ≠ 0 → q ≠ [] →
      q.foldl (fun acc p => viStep acc p.2) b =
        ⟨b.first_ptr, (q.getLastD (0, 0)).2 + 14⟩ := by
  induction q with
  | nil =>
    intro b _ h
    exact absurd rfl h
  | cons p t ih =>
    intro b hb _
    show t.foldl _ (viStep b p.2) = _
    rcases eq_or_ne t [] with ht | ht
    · subst ht
      show viStep b p.2 = _
      unfold viStep
      rw [if_neg hb]
      rfl
    · rw [ih (viStep b p.2) (by rw [viStep_first_of_ne b p.2 hb]; exact hb) ht,
        viStep_first_of_ne b p.2 hb]
      rw [List.getLastD_cons, getLastD_irrel t ht p (0, 0)]

theorem foldl_viStep_zero (q : List (Nat × Nat)) (hq : q ≠ [])
    (hpos : ∀ p ∈ q, p.2 ≠ 0) :
    q.foldl (fun acc p => viStep acc p.2) ⟨0, 0⟩ =
      ⟨(q.headD (0, 0)).2, (q.getLastD (0, 0)).2 + 14⟩ := by
  cases q with
  | nil => exact absurd rfl hq
  | cons p t =>
    have hv : viStep ⟨0, 0⟩ p.2 = ⟨p.2, p.2 + 14⟩ := by
      simp [viStep, Segment_Index_Block_Size]
    show t.foldl _ (viStep ⟨0, 0⟩ p.2) = _
    rcases eq_or_ne t [] with ht | ht
    · subst ht
      show viStep ⟨0, 0⟩ p.2 = _
      rw [hv]
      rfl
    · rw [hv, foldl_viStep_of_ne t ⟨p.2, p.2 + 14⟩
        (hpos p (List.mem_cons_self p t)) ht]
      rw [List.getLastD_cons, getLastD_irrel t ht p (0, 0)]
      rfl

/-! ### Nondecreasing bucket runs -/

theorem nonDec_tail (x : Nat) (xs : List Nat) (h : NonDec (x :: xs)) : NonDec xs := by
  cases xs with
  | nil => trivial
  | cons y r => exact h.2

theorem nonDec_head_le (x : Nat) (xs : List Nat) :
    NonDec (x :: xs) → ∀ y ∈ xs, x ≤ y := by
  induction xs generalizing x with
  | nil =>
    intro _ y hy
    exact absurd hy (List.not_mem_nil y)
  | cons z r ih =>
    intro h y hy
    obtain ⟨hxz, hrest⟩ := h
    rcases List.mem_cons.mp hy with rfl | hm
    · exact hxz
    · exact le_trans hxz (ih z hrest y hm)

theorem nonDec_append_le (xs ys : List Nat) :
    NonDec (xs ++ ys) → ∀ x ∈ xs, ∀ y ∈ ys, x ≤ y := by
  induction xs with
  | nil =>
    intro _ x hx
    exact absurd hx (List.not_mem_nil x)
  | cons a as ih =>
    intro h x hx y hy
    rcases List.mem_cons.mp hx with rfl | hm
    · exact nonDec_head_le x (as ++ ys) h y (List.mem_append_right as hy)
    · exact ih (nonDec_tail a (as ++ ys) h) x hm y hy

theorem exists_run {α : Type} (f : α → Nat) (B : Nat) (blocks : List α) :
    NonDec (blocks.map f) →
    ∃ pre mid post, blocks = pre ++ mid ++ post ∧
      (∀ b ∈ pre, f b ≠ B) ∧ (∀ b ∈ mid, f b = B) ∧ (∀ b ∈ post, f b ≠ B) := by
  induction blocks with
  | nil =>
    intro _
    exact ⟨[], [], [], rfl, by simp, by simp, by simp⟩
  | cons b rest ih =>
    intro h
    have htail : NonDec (rest.map f) := nonDec_tail (f b) (rest.map f) h
    obtain ⟨pre, mid, post, hsplit, hpre, hmid, hpost⟩ := ih htail
    by_cases hb : f b = B
    · rcases eq_or_ne mid [] with hm0 | hm0
      · refine ⟨[], [b], rest, by simp, by simp, by simp [hb], ?_⟩
        intro x hx
        rw [hsplit, hm0] at hx
        rcases List.mem_append.mp hx with h1 | h1
        · rcases List.mem_append.mp h1 with h2 | h2
          · exact hpre x h2
          · exact absurd h2 (List.not_mem_nil x)
        · exact hpost x h1
      · have hprenil : pre = [] := by
          cases pre with
          | nil => rfl
          | cons p ps =>
            exfalso
            obtain ⟨m, hm⟩ := List.exists_mem_of_ne_nil mid hm0
            have hpm : f p ∈ rest.map f := by
              rw [hsplit]
              exact List.mem_map_of_mem f
                (List.mem_append_left _ (List.mem_append_left _ (List.mem_cons_self p ps)))
            have h1 : f b ≤ f p := nonDec_head_le (f b) (rest.map f) h (f p) hpm
            have h2 : f p ≤ f m := by
              have hmaps : rest.map f = (p :: ps).map f ++ (mid ++ post).map f := by
                rw [hsplit, List.append_assoc, List.map_append]
              have := nonDec_append_le ((p :: ps).map f) ((mid ++ post).map f)
                (by rw [← hmaps]; exact htail)
              exact this (f p) (List.mem_map_of_mem f (List.mem_cons_self p ps))
                (f m) (List.mem_map_of_mem f (List.mem_append_left post hm))
            exact hpre p (List.mem_cons_self p ps) (by
              have := hmid m hm
              omega)
        subst hprenil
        rw [List.nil_append] at hsplit
        refine ⟨[], b :: mid, post, by rw [hsplit]; simp, by simp, ?_, hpost⟩
        intro x hx
        rcases List.mem_cons.mp hx with rfl | hx2
        · exact hb
        · exact hmid x hx2
    · refine ⟨b :: pre, mid, post, by rw [hsplit]; simp, ?_, hmid, hpost⟩
      intro x hx
      rcases List.mem_cons.mp hx with rfl | hx2
      · exact hb
      · exact hpre x hx2

/-! ### Strictly increasing block order from the segment chain -/

theorem incrBounded_weaken (l : List SegmentIndexBlock) (lo lo' : Nat)
    (hle : lo' ≤ lo) (h : IncrBounded lo l) : IncrBounded lo' l := by
  cases l with
  | nil => trivial
  | cons b t => exact ⟨le_trans hle h.1, h.2⟩

theorem incrBounded_append (xs : List SegmentIndexBlock) :
    ∀ (ys : List SegmentIndexBlock) (lo hi : Nat), lo ≤ hi + 1 → IncrBounded lo xs →
      (∀ b ∈ xs, b.sip ≤ hi) → IncrBounded (hi + 1) ys → IncrBounded lo (xs ++ ys) := by
  induction xs with
  | nil =>
    intro ys lo hi hlo _ _ hy
    exact incrBounded_weaken ys (hi + 1) lo hlo hy
  | cons b t ih =>
    intro ys lo hi hlo h hbd hy
    refine ⟨h.1, ?_⟩
    exact ih ys (b.sip + 1) hi (by have := hbd b (List.mem_cons_self b t); omega) h.2
      (fun x hx => hbd x (List.mem_cons_of_mem b hx)) hy

theorem splitRec_blocks (reg : String) (dl dp : Nat) :
    ∀ (k s e : Nat), s ≤ e → s / 65536 + k = e / 65536 →
      IncrBounded s ((splitRec reg k s e).map
        (fun p => (⟨p.start_ip, p.end_ip, dl, dp⟩ : SegmentIndexBlock))) ∧
      ∀ b ∈ (splitRec reg k s e).map
        (fun p => (⟨p.start_ip, p.end_ip, dl, dp⟩ : SegmentIndexBlock)), b.sip ≤ e := by
  intro k
  induction k with
  | zero =>
    intro s e hse _
    constructor
    · exact ⟨le_refl s, trivial⟩
    · intro b hb
      simp only [splitRec, List.map_cons, List.map_nil, List.mem_singleton] at hb
      subst hb
      exact hse
  | succ k ih =>
    intro s e hse hdiv
    have hs' : s / 65536 * 65536 + 65536 ≤ e := by omega
    have hdiv' : (s / 65536 * 65536 + 65536) / 65536 + k = e / 65536 := by omega
    obtain ⟨h1, h2⟩ := ih (s / 65536 * 65536 + 65536) e hs' hdiv'
    simp only [splitRec, List.map_cons]
    constructor
    · exact ⟨le_refl s, incrBounded_weaken _ _ _
        (by show s + 1 ≤ s / 65536 * 65536 + 65536; omega) h1⟩
    · intro b hb
      rcases List.mem_cons.mp hb with rfl | hb2
      · exact hse
      · exact h2 b hb2

theorem blocksOfSeg_sound (sg : Segment) (dl dp : Nat) (h : validSeg sg) :
    IncrBounded sg.start_ip (blocksOfSeg sg dl dp) ∧
    ∀ b ∈ blocksOfSeg sg dl dp, b.sip ≤ sg.end_ip := by
  have hk : sg.start_ip / 65536 + (sg.end_ip / 65536 - sg.start_ip / 65536) =
      sg.end_ip / 65536 := by
    have hdd : sg.start_ip / 65536 ≤ sg.end_ip / 65536 := Nat.div_le_div_right h.1
    omega
  exact splitRec_blocks sg.region dl dp _ sg.start_ip sg.end_ip h.1 hk

theorem writtenBlocks_chain (pool : List (String × Nat)) :
    ∀ (sgs : List Segment) (sg0 : Segment), chainOk (some sg0) sgs →
      IncrBounded (sg0.end_ip + 1) (writtenBlocks pool sgs) := by
  intro sgs
  induction sgs with
  | nil =>
    intro _ _
    trivial
  | cons sg rest ih =>
    intro sg0 h
    obtain ⟨hlink, hvalid, hrest⟩ := h
    have hlink' : sg0.end_ip + 1 = sg.start_ip := hlink
    rw [writtenBlocks_cons]
    obtain ⟨hinc, hbd⟩ := blocksOfSeg_sound sg _ _ hvalid
    refine incrBounded_append _ _ _ sg.end_ip (by have := hvalid.1; omega) ?_ hbd
      (ih sg hrest)
    exact incrBounded_weaken _ _ _ (by omega) hinc

theorem writtenBlocks_incr (pool : List (String × Nat)) (sgs : List Segment)
    (h : chainOk none sgs) : IncrBounded 0 (writtenBlocks pool sgs) := by
  cases sgs with
  | nil => trivial
  | cons sg rest =>
    obtain ⟨-, hvalid, hrest⟩ := h
    rw [writtenBlocks_cons]
    obtain ⟨hinc, hbd⟩ := blocksOfSeg_sound sg _ _ hvalid
    exact incrBounded_weaken _ _ 0 (Nat.zero_le _)
      (incrBounded_append _ _ sg.start_ip sg.end_ip (by have := hvalid.1; omega) hinc hbd
        (writtenBlocks_chain pool rest sg hrest))

theorem writtenBlocks_sip_lt (pool : List (String × Nat)) :
    ∀ (sgs : List Segment) (last : Option Segment), chainOk last sgs →
      ∀ b ∈ writtenBlocks pool sgs, b.sip < 4294967296 := by
  intro sgs
  induction sgs with
  | nil =>
    intro _ _ b hb
    exact absurd hb (List.not_mem_nil b)
  | cons sg rest ih =>
    intro last h b hb
    obtain ⟨-, hvalid, hrest⟩ := h
    rw [writtenBlocks_cons] at hb
    rcases List.mem_append.mp hb with h1 | h1
    · have hb1 := (blocksOfSeg_sound sg _ _ hvalid).2 b h1
      have hb2 := hvalid.2.1
      omega
    · exact ih (some sg) hrest b h1

theorem incrBounded_nonDec_div (l : List SegmentIndexBlock) :
    ∀ lo, IncrBounded lo l → NonDec (l.map (fun b => b.sip / 65536)) := by
  induction l with
  | nil =>
    intro _ _
    trivial
  | cons b t ih =>
    intro lo h
    cases t with
    | nil => trivial
    | cons c r =>
      have h2 : b.sip + 1 ≤ c.sip := h.2.1
      exact ⟨Nat.div_le_div_right (by omega), ih (b.sip + 1) h.2⟩

/-! ### Lemmas about block pairs -/

theorem bucket_eq_iff (ip r c : Nat) (hip : ip < 4294967296) (hr : r < 256) (hc : c < 256) :
    ((rowOf ip == r && colOf ip == c) = true) ↔ ip / 65536 = r * 256 + c := by
  simp only [Bool.and_eq_true, beq_iff_eq, rowOf, colOf]
  omega

theorem blockPairs_cons (b : SegmentIndexBlock) (t : List SegmentIndexBlock) (pos : Nat) :
    blockPairs (b :: t) pos = (b.sip, pos) :: blockPairs t (pos + 14) := rfl

theorem blockPairs_mem (bs : List SegmentIndexBlock) :
    ∀ (pos : Nat) (q : Nat × Nat), q ∈ blockPairs bs pos →
      (∃ b ∈ bs, q.1 = b.sip) ∧ pos ≤ q.2 := by
  induction bs with
  | nil =>
    intro pos q hq
    exact absurd hq (List.not_mem_nil q)
  | cons b t ih =>
    intro pos q hq
    rw [blockPairs_cons] at hq
    rcases List.mem_cons.mp hq with rfl | hq2
    · exact ⟨⟨b, List.mem_cons_self b t, rfl⟩, le_refl pos⟩
    · obtain ⟨⟨b', hb', h1⟩, h2⟩ := ih (pos + 14) q hq2
      exact ⟨⟨b', List.mem_cons_of_mem b hb', h1⟩, by omega⟩

theorem blockPairs_ne (bs : List SegmentIndexBlock) (pos : Nat) (h : bs ≠ []) :
    blockPairs bs pos ≠ [] := by
  cases bs with
  | nil => exact absurd rfl h
  | cons b t =>
    rw [blockPairs_cons]
    exact List.cons_ne_nil _ _

theorem blockPairs_headD_snd (bs : List SegmentIndexBlock) (pos : Nat) (h : bs ≠ []) :
    ((blockPairs bs pos).headD (0, 0)).2 = pos := by
  cases bs with
  | nil => exact absurd rfl h
  | cons b t => rfl

theorem blockPairs_getLastD_snd (bs : List SegmentIndexBlock) :
    ∀ pos, bs ≠ [] → ((blockPairs bs pos).getLastD (0, 0)).2 = pos + 14 * (bs.length - 1) := by
  induction bs with
  | nil =>
    intro pos h
    exact absurd rfl h
  | cons b t ih =>
    intro pos _
    rw [blockPairs_cons, List.getLastD_cons]
    cases t with
    | nil => rfl
    | cons c r =>
      rw [getLastD_irrel (blockPairs (c :: r) (pos + 14))
        (blockPairs_ne (c :: r) (pos + 14) (List.cons_ne_nil c r)) (b.sip, pos) (0, 0),
        ih (pos + 14) (List.cons_ne_nil c r)]
      simp only [List.length_cons]
      omega

/-! ### Claim C2: vector-index completeness -/

/-- C2: for every vector bucket (r, c), after a successful build: if no
written index block's start ip falls in the bucket, the bucket keeps
first_ptr = last_ptr = 0; otherwise the blocks in the bucket form one
contiguous run pre ++ inBucket ++ post of the written block sequence,
first_ptr is the file offset of the first of them (idxBase + 14 * |pre|),
and last_ptr - first_ptr = 14 * |inBucket| is a positive multiple of 14
counting exactly the blocks whose start ip falls in the bucket. -/
theorem claim_c2 (policy ts : Nat) (lines : List String) (sgs : List Segment)
    (st' : MakerState) (r c : Nat)
    (hr : r < 256) (hc : c < 256)
    (hload : loadSegments lines = (sgs, none))
    (hrun : runMaker policy ts lines = .ok st') :
    ((writtenBlocks (poolOf sgs) sgs).filter
        (fun b => rowOf b.sip == r && colOf b.sip == c) = [] →
      st'.vector_index r c = ⟨0, 0⟩) ∧
    ((writtenBlocks (poolOf sgs) sgs).filter
        (fun b => rowOf b.sip == r && colOf b.sip == c) ≠ [] →
      ∃ pre post,
        writtenBlocks (poolOf sgs) sgs =
          pre ++ (writtenBlocks (poolOf sgs) sgs).filter
            (fun b => rowOf b.sip == r && colOf b.sip == c) ++ post ∧
        (st'.vector_index r c).first_ptr = idxBase sgs + 14 * pre.length ∧
        (st'.vector_index r c).last_ptr = (st'.vector_index r c).first_ptr +
          14 * ((writtenBlocks (poolOf sgs) sgs).filter
            (fun b => rowOf b.sip == r && colOf b.sip == c)).length ∧
        0 < ((writtenBlocks (poolOf sgs) sgs).filter
            (fun b => rowOf b.sip == r && colOf b.sip == c)).length) := by
  obtain ⟨hvi, hdst, hpool, hseg, hne, hchain, hlen⟩ :=
    runMaker_denote policy ts lines sgs st' hload hrun
  set blocks := writtenBlocks (poolOf sgs) sgs with hblocks
  set P : SegmentIndexBlock → Bool := fun b => rowOf b.sip == r && colOf b.sip == c with hP
  have hlt : ∀ b ∈ blocks, b.sip < 4294967296 :=
    writtenBlocks_sip_lt (poolOf sgs) sgs none hchain
  have hbridge : ∀ b ∈ blocks, (P b = true ↔ b.sip / 65536 = r * 256 + c) := by
    intro b hb
    exact bucket_eq_iff b.sip r c (hlt b hb) hr hc
  have hinc : IncrBounded 0 blocks := writtenBlocks_incr (poolOf sgs) sgs hchain
  have hnd : NonDec (blocks.map (fun b => b.sip / 65536)) :=
    incrBounded_nonDec_div blocks 0 hinc
  obtain ⟨pre, mid, post, hsplit, hpre, hmid, hpost⟩ :=
    exists_run (fun b => b.sip / 65536) (r * 256 + c) blocks hnd
  have hpre' : pre.filter P = [] := by
    rw [List.filter_eq_nil_iff]
    intro b hb hPb
    have hmemb : b ∈ blocks := by
      rw [hsplit]
      exact List.mem_append_left _ (List.mem_append_left _ hb)
    exact hpre b hb ((hbridge b hmemb).mp hPb)
  have hmid' : mid.filter P = mid := by
    rw [List.filter_eq_self]
    intro b hb
    have hmemb : b ∈ blocks := by
      rw [hsplit]
      exact List.mem_append_left _ (List.mem_append_right _ hb)
    exact (hbridge b hmemb).mpr (hmid b hb)
  have hpost' : post.filter P = [] := by
    rw [List.filter_eq_nil_iff]
    intro b hb hPb
    have hmemb : b ∈ blocks := by
      rw [hsplit]
      exact List.mem_append_right _ hb
    exact hpost b hb ((hbridge b hmemb).mp hPb)
  have hfil : blocks.filter P = mid := by
    conv_lhs => rw [hsplit]
    rw [List.filter_append, List.filter_append, hpre', hmid', hpost']
    simp
  have hvival : st'.vector_index r c =
      ((blockPairs blocks (idxBase sgs)).filter
        (fun q => rowOf q.1 == r && colOf q.1 == c)).foldl
        (fun b q => viStep b q.2) ⟨0, 0⟩ := by
    rw [hvi]
    show viFold zeroVI (blockPairs blocks (idxBase sgs)) r c = _
    rw [viFold_apply]
    rfl
  have hq1 : (blockPairs pre (idxBase sgs)).filter
      (fun q => rowOf q.1 == r && colOf q.1 == c) = [] := by
    rw [List.filter_eq_nil_iff]
    intro q hq hPq
    obtain ⟨⟨b, hb, hq1⟩, -⟩ := blockPairs_mem pre (idxBase sgs) q hq
    have hmemb : b ∈ blocks := by
      rw [hsplit]
      exact List.mem_append_left _ (List.mem_append_left _ hb)
    rw [hq1] at hPq
    exact hpre b hb ((hbridge b hmemb).mp hPq)
  have hq2 : (blockPairs mid (idxBase sgs + 14 * pre.length)).filter
      (fun q => rowOf q.1 == r && colOf q.1 == c) =
      blockPairs mid (idxBase sgs + 14 * pre.length) := by
    rw [List.filter_eq_self]
    intro q hq
    obtain ⟨⟨b, hb, hq1⟩, -⟩ := blockPairs_mem mid (idxBase sgs + 14 * pre.length) q hq
    have hmemb : b ∈ blocks := by
      rw [hsplit]
      exact List.mem_append_left _ (List.mem_append_right _ hb)
    rw [hq1]
    exact (hbridge b hmemb).mpr (hmid b hb)
  have hq3 : (blockPairs post (idxBase sgs + 14 * pre.length + 14 * mid.length)).filter
      (fun q => rowOf q.1 == r && colOf q.1 == c) = [] := by
    rw [List.filter_eq_nil_iff]
    intro q hq hPq
    obtain ⟨⟨b, hb, hq1⟩, -⟩ :=
      blockPairs_mem post (idxBase sgs + 14 * pre.length + 14 * mid.length) q hq
    have hmemb : b ∈ blocks := by
      rw [hsplit]
      exact List.mem_append_right _ hb
    rw [hq1] at hPq
    exact hpost b hb ((hbridge b hmemb).mp hPq)
  have hpairs : (blockPairs blocks (idxBase sgs)).filter
      (fun q => rowOf q.1 == r && colOf q.1 == c) =
      blockPairs mid (idxBase sgs + 14 * pre.length) := by
    conv_lhs => rw [hsplit]
    rw [blockPairs_append, blockPairs_append, List.filter_append, List.filter_append]
    rw [hq1, hq2]
    rw [List.length_append,
      show idxBase sgs + 14 * (pre.length + mid.length) =
        idxBase sgs + 14 * pre.length + 14 * mid.length by ring, hq3]
    simp
  constructor
  · intro hempty
    have hmidnil : mid = [] := by
      rw [← hfil]
      exact hempty
    rw [hvival, hpairs, hmidnil]
    rfl
  · intro hnonempty
    have hmidne : mid ≠ [] := by
      rw [← hfil]
      exact hnonempty
    have hposges : ∀ q ∈ blockPairs mid (idxBase sgs + 14 * pre.length), q.2 ≠ 0 := by
      intro q hq
      have h2 := (blockPairs_mem mid (idxBase sgs + 14 * pre.length) q hq).2
      have h3 := idxBase_eq sgs
      omega
    have hval : st'.vector_index r c =
        ⟨idxBase sgs + 14 * pre.length,
          idxBase sgs + 14 * pre.length + 14 * (mid.length - 1) + 14⟩ := by
      rw [hvival, hpairs,
        foldl_viStep_zero (blockPairs mid (idxBase sgs + 14 * pre.length))
          (blockPairs_ne mid (idxBase sgs + 14 * pre.length) hmidne) hposges,
        blockPairs_headD_snd mid (idxBase sgs + 14 * pre.length) hmidne,
        blockPairs_getLastD_snd mid (idxBase sgs + 14 * pre.length) hmidne]
    have hmlen : 1 ≤ mid.length := List.length_pos.mpr hmidne
    refine ⟨pre, post, ?_, ?_, ?_, ?_⟩
    · rw [hfil]
      exact hsplit
    · rw [hval]
    · rw [hval, hfil]
      show idxBase sgs + 14 * pre.length + 14 * (mid.length - 1) + 14 =
        idxBase sgs + 14 * pre.length + 14 * mid.length
      omega
    · rw [hfil]
      exact List.length_pos.mpr hmidne

theorem claim_c2_witness :
    ((writtenBlocks (poolOf [⟨0, 131071, "Z"⟩]) [⟨0, 131071, "Z"⟩]).filter
        (fun b => rowOf b.sip == 0 && colOf b.sip == 0) = [] →
      (runOk 1 0 ["0|131071|Z"] (new_maker_state 1 [])).vector_index 0 0 = ⟨0, 0⟩) ∧
    ((writtenBlocks (poolOf [⟨0, 131071, "Z"⟩]) [⟨0, 131071, "Z"⟩]).filter
        (fun b => rowOf b.sip == 0 && colOf b.sip == 0) ≠ [] →
      ∃ pre post,
        writtenBlocks (poolOf [⟨0, 131071, "Z"⟩]) [⟨0, 131071, "Z"⟩] =
          pre ++ (writtenBlocks (poolOf [⟨0, 131071, "Z"⟩]) [⟨0, 131071, "Z"⟩]).filter
            (fun b => rowOf b.sip == 0 && colOf b.sip == 0) ++ post ∧
        ((runOk 1 0 ["0|131071|Z"] (new_maker_state 1 [])).vector_index 0 0).first_ptr =
          idxBase [⟨0, 131071, "Z"⟩] + 14 * pre.length ∧
        ((runOk 1 0 ["0|131071|Z"] (new_maker_state 1 [])).vector_index 0 0).last_ptr =
          ((runOk 1 0 ["0|131071|Z"] (new_maker_state 1 [])).vector_index 0 0).first_ptr +
          14 * ((writtenBlocks (poolOf [⟨0, 131071, "Z"⟩]) [⟨0, 131071, "Z"⟩]).filter
            (fun b => rowOf b.sip == 0 && colOf b.sip == 0)).length ∧
        0 < ((writtenBlocks (poolOf [⟨0, 131071, "Z"⟩]) [⟨0, 131071, "Z"⟩]).filter
            (fun b => rowOf b.sip == 0 && colOf b.sip == 0)).length) :=
  claim_c2 1 0 ["0|131071|Z"] [⟨0, 131071, "Z"⟩]
    (runOk 1 0 ["0|131071|Z"] (new_maker_state 1 []))
    0 0 (by decide) (by decide) (by decide) rfl

end IP2Region
